import Mathlib

/-! # lodeb: verification of the UI control layer (`AppLayer.cpp`)

Shallow embedding of the windows of `lodeb::AppLayer` that carry state:
the locals window with its function-level static frame/variable cache, the
command bar with the one-shot symbol-index future, the debug window and the
source view.  Widget return values (`ImGui::Button`, `ImGui::TreeNode`,
`ImGui::Selectable`, `ImGui::InvisibleButton`) are inputs of the embedded
functions; calls into the debugger backend are fields of the backend
objects.
-/

namespace lodeb

/-! ## Backend and application data -/

/-- Modelled from the spec: `FileLoc` is declared outside `AppLayer.cpp`;
the spec gives it as a path and an unsigned line number. -/
structure FileLoc where
  path : String
  line : Nat
  deriving DecidableEq, Repr

/-- The values of `lldb::StateType`. -/
inductive StateType where
  | eStateInvalid
  | eStateUnloaded
  | eStateConnected
  | eStateAttaching
  | eStateLaunching
  | eStateStopped
  | eStateRunning
  | eStateStepping
  | eStateCrashed
  | eStateDetached
  | eStateExited
  | eStateSuspended
  deriving DecidableEq, Repr

/-- An `lldb::SBValue`: what `GetName`, `GetLoadAddress` and
`GetDescription` report for it. -/
structure SBValue where
  GetName : String
  GetLoadAddress : Nat
  GetDescription : String
  deriving DecidableEq, Repr

/-- An `lldb::SBFrame`: `GetFrameID`, `GetPC` and the list returned by
`GetVariables` for in-scope locals and arguments. -/
structure SBFrame where
  GetFrameID : Nat
  GetPC : Nat
  GetVariables : List SBValue
  deriving DecidableEq, Repr

/-- The process session: `process.GetState()` and
`process.GetSelectedThread().GetSelectedFrame()`. -/
structure ProcessState where
  GetState : StateType
  GetSelectedFrame : SBFrame
  deriving DecidableEq, Repr

/-- Modelled from the spec: the match type of the symbol index is declared
outside `AppLayer.cpp`; the spec gives it as a name and an optional
location. -/
structure SymbolMatch where
  name : String
  loc : Option FileLoc
  deriving DecidableEq, Repr

/-- The symbol index, seen through `ForEachMatch`: the matches it visits, in
order, for a search text. -/
structure SymbolLocCache where
  ForEachMatch : String → List SymbolMatch

/-- An operation performed on the `std::future` of the symbol index. -/
inductive FutureOp where
  | wait_for (ready : Bool)
  | get
  deriving DecidableEq, Repr

/-- The `std::future` holding the symbol index under construction: the value
it delivers and the operations performed on it so far, oldest first. -/
structure SymFuture where
  value : SymbolLocCache
  ops : List FutureOp

/-- The target session. -/
structure TargetState where
  sym_loc_cache : Option SymbolLocCache
  sym_loc_cache_future : SymFuture
  loc_to_breakpoint : List FileLoc
  process_state : Option ProcessState

inductive ChangeDebugStateKind where
  | Kill
  | StepIn
  | StepOver
  | Continue
  deriving DecidableEq, Repr

/-- The events the windows push to `state.events`. -/
inductive Event where
  | LoadTargetEvent
  | StartProcessEvent
  | ChangeDebugStateEvent (kind : ChangeDebugStateKind)
  | ToggleBreakpointEvent (loc : FileLoc)
  | SetSelectedFrameEvent (index : Nat)
  | ViewSourceEvent (loc : FileLoc)
  deriving DecidableEq, Repr

structure SourceViewState where
  path : String
  text : String
  scroll_to_line : Option Nat
  deriving DecidableEq, Repr

/-- The application state read and written by the windows.
`GetCurFrameLoc` is the result of `state.GetCurFrameLoc()`. -/
structure State where
  target_state : Option TargetState
  source_view_state : Option SourceViewState
  events : List Event
  GetCurFrameLoc : Option FileLoc

/-! ## `std::unordered_map<std::string, _>` as an association list -/

/-- The value stored under a key: `find`. -/
def mapFind {β : Type} : List (String × β) → String → Option β
  | [], _ => none
  | (k, v) :: rest, key => if k = key then some v else mapFind rest key

/-- The effect of `m[key] = v`: overwrite an existing entry, else add one. -/
def mapAssign {β : Type} : List (String × β) → String → β → List (String × β)
  | [], key, v => [(key, v)]
  | (k, w) :: rest, key, v =>
    if k = key then (k, v) :: rest else (k, w) :: mapAssign rest key v

/-- The keys of a map. -/
def mapKeys {β : Type} (m : List (String × β)) : List String := m.map Prod.fst

/-! ## `std::format` -/

/-- Pad on the left with `c` up to `width` characters. -/
def padLeft (width : Nat) (c : Char) (s : List Char) : List Char :=
  List.replicate (width - s.length) c ++ s

/-- The replacement field `:#010x`: lowercase hexadecimal, prefix `0x`, zero
padded after the prefix to a total width of 10. -/
def formatHex010 (n : Nat) : String :=
  String.mk ('0' :: 'x' :: padLeft 8 '0' (Nat.toDigits 16 n))

/-- The sentinel `(lldb::addr_t)-1`. -/
def LLDB_INVALID_ADDRESS : Nat := 2 ^ 64 - 1

/-- The function-level statics of `WindowLocals`. -/
structure LocalsStatics where
  last_frame_id : Nat
  last_frame_pc : Nat
  var_names : List String
  name_to_value : List (String × SBValue)
  name_to_desc : List (String × String)
  stream : String
  deriving DecidableEq, Repr

/-- The statics as initialised at program start. -/
def LocalsStatics.initial : LocalsStatics :=
  { last_frame_id := 2 ^ 32 - 1
    last_frame_pc := 2 ^ 64 - 1
    var_names := []
    name_to_value := []
    name_to_desc := []
    stream := "" }

/-- The name built for a variable:
`std::format("{} at {:#010x}", var.GetName(), var.GetLoadAddress())`. -/
def displayName (name : String) (addr : Nat) : String :=
  name ++ " at " ++ formatHex010 addr

/-- The loop over `vars` of the rebuild, from index `i` on. -/
def rebuildLoop : List SBValue → LocalsStatics → LocalsStatics
  | [], c => c
  | var :: rest, c =>
    let addr := var.GetLoadAddress
    if addr = LLDB_INVALID_ADDRESS then rebuildLoop rest c
    else
      let name := displayName var.GetName var.GetLoadAddress
      rebuildLoop rest
        { c with var_names := c.var_names ++ [name]
                 name_to_value := mapAssign c.name_to_value name var }

/-- The block guarded by the comparison of the frame with the cached key. -/
def refreshCache (c : LocalsStatics) (frame : SBFrame) : LocalsStatics :=
  if frame.GetFrameID ≠ c.last_frame_id ∨ frame.GetPC ≠ c.last_frame_pc then
    let vars := frame.GetVariables
    rebuildLoop vars
      { c with last_frame_id := frame.GetFrameID
               last_frame_pc := frame.GetPC
               var_names := []
               name_to_value := []
               name_to_desc := [] }
  else c

/-- The result of the lambda `get_name_desc`: the returned text (`none` for
the null pointer), the statics afterwards, and the names for which the
backend `GetDescription` was invoked during the call. -/
structure DescResult where
  value : Option String
  statics : LocalsStatics
  described : List String
  deriving DecidableEq, Repr

def get_name_desc (c : LocalsStatics) (var_name : String) : DescResult :=
  match mapFind c.name_to_desc var_name with
  | some desc => { value := some desc, statics := c, described := [] }
  | none =>
    match mapFind c.name_to_value var_name with
    | none => { value := none, statics := c, described := [] }
    | some found_value =>
      let stream := "" ++ found_value.GetDescription
      let s := stream
      { value := some s
        statics := { c with stream := stream
                            name_to_desc := mapAssign c.name_to_desc var_name s }
        described := [var_name] }

/-- One tree node of the locals window: its label, whether it is open, and
the text shown under it. -/
structure LocalsRow where
  label : String
  opened : Bool
  text : Option String
  deriving DecidableEq, Repr

/-- What the locals window shows. -/
inductive LocalsView where
  | noTargetLoaded
  | processNotRunning
  | running
  | vars (rows : List LocalsRow)
  deriving DecidableEq, Repr

structure LocalsResult where
  statics : LocalsStatics
  view : LocalsView
  described : List String
  deriving DecidableEq, Repr

/-- The loop over `var_names` that draws the tree nodes. -/
def drawVars (TreeNode : String → Bool) :
    List String → LocalsStatics → List LocalsRow → List String →
      LocalsStatics × List LocalsRow × List String
  | [], c, rows, described => (c, rows, described)
  | var_name :: rest, c, rows, described =>
    if TreeNode var_name then
      let r := get_name_desc c var_name
      drawVars TreeNode rest r.statics
        (rows ++ [{ label := var_name, opened := true, text := r.value }])
        (described ++ r.described)
    else
      drawVars TreeNode rest c
        (rows ++ [{ label := var_name, opened := false, text := none }]) described

def WindowLocals (c : LocalsStatics) (state : State) (TreeNode : String → Bool) :
    LocalsResult :=
  match state.target_state with
  | none => { statics := c, view := .noTargetLoaded, described := [] }
  | some target_state =>
    match target_state.process_state with
    | none => { statics := c, view := .processNotRunning, described := [] }
    | some ps =>
      if ps.GetState ≠ .eStateStopped then
        { statics := c, view := .running, described := [] }
      else
        let frame := ps.GetSelectedFrame
        let c1 := refreshCache c frame
        let (c2, rows, described) := drawVars TreeNode c1.var_names c1 [] []
        { statics := c2, view := .vars rows, described := described }

/-! ## `AppLayer::WindowCommandBar`: the lambda `handle_parsed_command` -/

/-- The result of `ParseCommand`: the symbol search, or another command. -/
inductive ParsedCommand where
  | LookForSymbolCommand (text : String)
  | otherCommand
  deriving DecidableEq, Repr

/-- Undefined behaviour reached by the code. -/
inductive Fault where
  | emptyOptionalDereferenced
  deriving DecidableEq, Repr

/-- The callback passed to `ForEachMatch`, run over the visited matches;
`i` is the counter pushed as ImGui id. -/
def forEachMatchCallback (Selectable : Nat → String → Bool) :
    List SymbolMatch → Nat → List Event → Except Fault (List Event)
  | [], _, events => .ok events
  | m :: rest, i, events =>
    if Selectable i m.name then
      match m.loc with
      | none => .error .emptyOptionalDereferenced
      | some loc =>
        let event := Event.ViewSourceEvent loc
        forEachMatchCallback Selectable rest (i + 1) (events ++ [event])
    else forEachMatchCallback Selectable rest (i + 1) events

/-- The lambda `handle_parsed_command`.  `ready` is whether the future is
ready when polled, `Selectable` the return value of `ImGui::Selectable`
under the pushed id. -/
def handle_parsed_command (state : State) (parsed : ParsedCommand) (ready : Bool)
    (Selectable : Nat → String → Bool) : Except Fault State :=
  match state.target_state with
  | none => .ok state
  | some ts =>
    match parsed with
    | .otherCommand => .ok state
    | .LookForSymbolCommand text =>
      match ts.sym_loc_cache with
      | none =>
        let fut := ts.sym_loc_cache_future
        let polled : SymFuture := { fut with ops := fut.ops ++ [.wait_for ready] }
        if ready then
          let got : SymFuture := { polled with ops := polled.ops ++ [.get] }
          let ts1 : TargetState :=
            { ts with sym_loc_cache := some got.value, sym_loc_cache_future := got }
          .ok { state with target_state := some ts1 }
        else
          let ts1 : TargetState := { ts with sym_loc_cache_future := polled }
          .ok { state with target_state := some ts1 }
      | some sym_loc_cache =>
        match forEachMatchCallback Selectable (sym_loc_cache.ForEachMatch text) 0
            state.events with
        | .error f => .error f
        | .ok events => .ok { state with events := events }

/-- One call of `handle_parsed_command`: what the rest of the application did
to the state since the previous call (`update`), the parsed command, the
readiness of the future and the clicks of that frame. -/
structure CommandBarCall where
  update : State → State
  parsed : ParsedCommand
  ready : Bool
  Selectable : Nat → String → Bool

/-- Successive calls of `handle_parsed_command`, each on the state left by
the previous one and updated by the rest of the application. -/
def runCommandBar : State → List CommandBarCall → Except Fault State
  | state, [] => .ok state
  | state, call :: rest =>
    match handle_parsed_command (call.update state) call.parsed call.ready
        call.Selectable with
    | .error f => .error f
    | .ok state1 => runCommandBar state1 rest

/-- The operations performed so far on the future of the target session. -/
def futureOps (state : State) : List FutureOp :=
  match state.target_state with
  | none => []
  | some ts => ts.sym_loc_cache_future.ops

/-- Whether the target session holds the symbol index. -/
def symLocCachePresent (state : State) : Bool :=
  match state.target_state with
  | none => false
  | some ts => ts.sym_loc_cache.isSome

/-- An update of the state that stays with the same target session: it leaves
the future and the presence of the symbol index as they are. -/
def keepsSymbolIndex (update : State → State) : Prop :=
  ∀ s, futureOps (update s) = futureOps s ∧
    symLocCachePresent (update s) = symLocCachePresent s

/-! ## `AppLayer::WindowDebug` -/

/-- Append `event` to the queue when the button was pressed. -/
def pushIf (pressed : Bool) (event : Event) (events : List Event) : List Event :=
  if pressed then events ++ [event] else events

def WindowDebug (state : State) (Button : String → Bool) : State :=
  match state.target_state with
  | none => state
  | some target_state =>
    match target_state.process_state with
    | none =>
      if Button "Start" then
        { state with events := state.events ++ [.StartProcessEvent] }
      else state
    | some ps =>
      if ps.GetState ≠ .eStateStopped then state
      else
        let e1 := pushIf (Button "Kill") (.ChangeDebugStateEvent .Kill) state.events
        let e2 := pushIf (Button "Step In") (.ChangeDebugStateEvent .StepIn) e1
        let e3 := pushIf (Button "Step Over") (.ChangeDebugStateEvent .StepOver) e2
        let e4 := pushIf (Button "Continue") (.ChangeDebugStateEvent .Continue) e3
        { state with events := e4 }

/-! ## `AppLayer::WindowSourceView` -/

/-- The value of a hexadecimal digit character. -/
def hexValue (c : Char) : Nat :=
  if c.toNat < 58 then c.toNat - 48 else c.toNat - 87

/-- The number written by a string of hexadecimal digits. -/
def decodeHex (cs : List Char) : Nat :=
  cs.foldl (fun a c => a * 16 + hexValue c) 0

/-- The display names of the enumerated variables whose load address is not
the sentinel, in enumeration order. -/
def resolvedNames (vars : List SBValue) : List String :=
  (vars.filter (fun v => decide (v.GetLoadAddress ≠ LLDB_INVALID_ADDRESS))).map
    (fun v => displayName v.GetName v.GetLoadAddress)

/-- Successive assignments of the resolved variables under their display
names. -/
def resolvedValues (vars : List SBValue) (m : List (String × SBValue)) :
    List (String × SBValue) :=
  (vars.filter (fun v => decide (v.GetLoadAddress ≠ LLDB_INVALID_ADDRESS))).foldl
    (fun m v => mapAssign m (displayName v.GetName v.GetLoadAddress) v) m

/-- The part of the statics that only a rebuild writes. -/
def frameData (c : LocalsStatics) : Nat × Nat × List String × List (String × SBValue) :=
  (c.last_frame_id, c.last_frame_pc, c.var_names, c.name_to_value)

/-- An open tree node shows a text. -/
def rowHasText (r : LocalsRow) : Prop := r.opened = true → ∃ d, r.text = some d

/-- The selected frame of a stopped process, when there is one: the frame
`WindowLocals` reads past its three early returns. -/
def stoppedFrame (state : State) : Option SBFrame :=
  match state.target_state with
  | none => none
  | some ts =>
    match ts.process_state with
    | none => none
    | some ps => if ps.GetState = .eStateStopped then some ps.GetSelectedFrame else none

/-- The statics right after a rebuild for `frame`, the stream left empty. -/
def rebuiltFor (frame : SBFrame) : LocalsStatics :=
  rebuildLoop frame.GetVariables
    { last_frame_id := frame.GetFrameID, last_frame_pc := frame.GetPC, var_names := [],
      name_to_value := [], name_to_desc := [], stream := "" }

/-- The statics without the scratch stream. -/
def cacheContent (c : LocalsStatics) :
    Nat × Nat × List String × List (String × SBValue) × List (String × String) :=
  (c.last_frame_id, c.last_frame_pc, c.var_names, c.name_to_value, c.name_to_desc)

/-- What is known of a log of backend descriptions: no name twice, and each
logged name has its description stored. -/
def logStored (c : LocalsStatics) (log : List String) : Prop :=
  log.Nodup ∧ ∀ n ∈ log, ∃ d, mapFind c.name_to_desc n = some d

/-- Every stored description is the backend description of the value cached
under the same name. -/
def descSound (c : LocalsStatics) : Prop :=
  ∀ n d, mapFind c.name_to_desc n = some d →
    ∃ v, mapFind c.name_to_value n = some v ∧ d = v.GetDescription

/-- The text of a row is the backend description of the value cached under
its label. -/
def rowSound (values : List (String × SBValue)) (r : LocalsRow) : Prop :=
  ∀ t, r.text = some t → ∃ v, mapFind values r.label = some v ∧ t = v.GetDescription

/-- One call of `WindowLocals`: the application state it is rendered against
and the tree nodes that are open. -/
structure LocalsCall where
  state : State
  TreeNode : String → Bool

/-- Successive calls of `WindowLocals` on the same statics: the statics at the
end and the names for which the backend description was invoked, in order. -/
def runLocals : LocalsStatics → List LocalsCall → LocalsStatics × List String
  | c, [] => (c, [])
  | c, call :: rest =>
    let r := WindowLocals c call.state call.TreeNode
    let q := runLocals r.statics rest
    (q.1, r.described ++ q.2)

/-- No call of the sequence finds a frame other than the cached one. -/
def keyKept (c : LocalsStatics) (calls : List LocalsCall) : Prop :=
  ∀ call ∈ calls, ∀ frame, stoppedFrame call.state = some frame →
    frame.GetFrameID = c.last_frame_id ∧ frame.GetPC = c.last_frame_pc

/-- The statics are consistent: listed names and described names are keys of
the value map. -/
def cacheConsistent (c : LocalsStatics) : Prop :=
  (∀ n ∈ c.var_names, n ∈ mapKeys c.name_to_value) ∧
    (∀ n ∈ mapKeys c.name_to_desc, n ∈ mapKeys c.name_to_value)

/-- A state with a target session whose process session is `ps`. -/
def stateWith (ps : ProcessState) : State :=
  { target_state := some
      { sym_loc_cache := none
        sym_loc_cache_future := { value := { ForEachMatch := fun _ => [] }, ops := [] }
        loc_to_breakpoint := []
        process_state := some ps }
    source_view_state := none
    events := []
    GetCurFrameLoc := none }

/-- A stopped process session: frame 0 at pc 0x1000 with one local `x`. -/
def sessionA : ProcessState :=
  { GetState := .eStateStopped
    GetSelectedFrame :=
      { GetFrameID := 0, GetPC := 0x1000
        GetVariables :=
          [{ GetName := "x", GetLoadAddress := 0x10, GetDescription := "(int) x = 1" }] } }

/-- Another stopped process session: frame 0 at the same pc 0x1000, with
one local `y`. -/
def sessionB : ProcessState :=
  { GetState := .eStateStopped
    GetSelectedFrame :=
      { GetFrameID := 0, GetPC := 0x1000
        GetVariables :=
          [{ GetName := "y", GetLoadAddress := 0x20, GetDescription := "(int) y = 2" }] } }

/-- A stopped process session at frame 3, pc 0x2000, with a resolved local
and one whose load address is the sentinel. -/
def sessionC : ProcessState :=
  { GetState := .eStateStopped
    GetSelectedFrame :=
      { GetFrameID := 3, GetPC := 0x2000
        GetVariables :=
          [{ GetName := "n", GetLoadAddress := 0x7ffe0010, GetDescription := "(int) n = 7" },
           { GetName := "tmp", GetLoadAddress := 2 ^ 64 - 1, GetDescription := "" }] } }

/-- Every tree node open. -/
def allOpen : String → Bool := fun _ => true

/-- The operations a sequence of calls performs on a future that has not
been consumed: polls that report not ready, then possibly one poll that
reports ready followed at once by the one retrieval. -/
def oneShot (ops : List FutureOp) : Prop :=
  ∃ k, ops = List.replicate k (.wait_for false) ∨
    ops = List.replicate k (.wait_for false) ++ [.wait_for true, .get]

/-- The controller draining the event queue between two frames. -/
def drainEvents (state : State) : State := { state with events := [] }

/-- Four successive searches: the future is not ready for the first two, and
ready from the third on. -/
def pollingCalls : List CommandBarCall :=
  [{ update := drainEvents, parsed := .LookForSymbolCommand "ma", ready := false
     Selectable := fun _ _ => false },
   { update := drainEvents, parsed := .LookForSymbolCommand "mai", ready := false
     Selectable := fun _ _ => false },
   { update := drainEvents, parsed := .LookForSymbolCommand "main", ready := true
     Selectable := fun _ _ => false },
   { update := drainEvents, parsed := .LookForSymbolCommand "main", ready := true
     Selectable := fun _ _ => false }]

/-- A state whose target session holds a symbol index with the two
matches `main` (located) and `_start` (without a location). -/
def indexedState : State :=
  { target_state := some
      { sym_loc_cache := some
          { ForEachMatch := fun _ =>
              [{ name := "main", loc := some { path := "main.c", line := 3 } },
               { name := "_start", loc := none }] }
        sym_loc_cache_future := { value := { ForEachMatch := fun _ => [] }, ops := [] }
        loc_to_breakpoint := []
        process_state := none }
    source_view_state := none
    events := []
    GetCurFrameLoc := none }

theorem mapFind_mapAssign_self {β : Type} (m : List (String × β)) (k : String) (v : β) :
    mapFind (mapAssign m k v) k = some v := by
  induction m with
  | nil => simp [mapAssign, mapFind]
  | cons e rest ih =>
    obtain ⟨k1, w⟩ := e
    by_cases h : k1 = k
    · simp [mapAssign, mapFind, h]
    · simp [mapAssign, mapFind, h, ih]

theorem mapFind_mapAssign_ne {β : Type} (m : List (String × β)) (k key : String) (v : β)
    (hne : k ≠ key) : mapFind (mapAssign m k v) key = mapFind m key := by
  induction m with
  | nil => simp [mapAssign, mapFind, hne]
  | cons e rest ih =>
    obtain ⟨k1, w⟩ := e
    by_cases h : k1 = k
    · subst h
      simp [mapAssign, mapFind, hne]
    · by_cases h2 : k1 = key
      · simp [mapAssign, mapFind, h, if_pos h2]
      · simp [mapAssign, mapFind, h, h2, ih]

theorem mem_mapKeys_mapAssign {β : Type} (m : List (String × β)) (k x : String) (v : β) :
    x ∈ mapKeys (mapAssign m k v) ↔ x = k ∨ x ∈ mapKeys m := by
  induction m with
  | nil => simp [mapAssign, mapKeys]
  | cons e rest ih =>
    obtain ⟨k1, w⟩ := e
    by_cases h : k1 = k
    · subst h
      simp [mapAssign, mapKeys]
    · have ih1 : x ∈ List.map Prod.fst (mapAssign rest k v) ↔
          x = k ∨ x ∈ List.map Prod.fst rest := ih
      simp only [mapAssign, mapKeys, h, if_false, List.map_cons, List.mem_cons, ih1]
      tauto

theorem mapFind_eq_none_iff {β : Type} (m : List (String × β)) (key : String) :
    mapFind m key = none ↔ key ∉ mapKeys m := by
  induction m with
  | nil => simp [mapFind, mapKeys]
  | cons e rest ih =>
    obtain ⟨k1, w⟩ := e
    have ih1 : mapFind rest key = none ↔ key ∉ List.map Prod.fst rest := ih
    by_cases h : k1 = key
    · simp [mapFind, mapKeys, h]
    · have h2 : ¬ key = k1 := fun e => h e.symm
      simp [mapFind, mapKeys, h, h2, ih1]

theorem mapFind_isSome_of_mem {β : Type} (m : List (String × β)) (key : String)
    (h : key ∈ mapKeys m) : ∃ v, mapFind m key = some v := by
  cases hf : mapFind m key with
  | none => exact absurd h ((mapFind_eq_none_iff m key).mp hf)
  | some v => exact ⟨v, rfl⟩

theorem mem_mapKeys_of_mapFind {β : Type} (m : List (String × β)) (key : String) (v : β)
    (h : mapFind m key = some v) : key ∈ mapKeys m := by
  by_contra hn
  rw [(mapFind_eq_none_iff m key).mpr hn] at h
  exact Option.noConfusion h

theorem mapFind_mem {β : Type} (m : List (String × β)) (key : String) (v : β)
    (h : mapFind m key = some v) : (key, v) ∈ m := by
  induction m with
  | nil => simp [mapFind] at h
  | cons e rest ih =>
    obtain ⟨k1, w⟩ := e
    by_cases hk : k1 = key
    · simp [mapFind, hk] at h
      simp [hk, h]
    · simp [mapFind, hk] at h
      exact List.mem_cons_of_mem _ (ih h)

theorem mem_mapAssign {β : Type} (m : List (String × β)) (k : String) (v : β)
    (e : String × β) (h : e ∈ mapAssign m k v) : e = (k, v) ∨ e ∈ m := by
  induction m with
  | nil => simpa [mapAssign] using h
  | cons e1 rest ih =>
    obtain ⟨k1, w⟩ := e1
    by_cases hk : k1 = k
    · simp only [mapAssign, hk, if_true, List.mem_cons] at h
      rcases h with h | h
      · exact Or.inl h
      · exact Or.inr (List.mem_cons_of_mem _ h)
    · simp only [mapAssign, hk, if_false, List.mem_cons] at h
      rcases h with h | h
      · exact Or.inr (by simp [h])
      · rcases ih h with h1 | h1
        · exact Or.inl h1
        · exact Or.inr (List.mem_cons_of_mem _ h1)

/-! ## Lemmas on the hexadecimal field -/

theorem hexValue_digitChar : ∀ d, d < 16 → hexValue (Nat.digitChar d) = d := by
  decide

theorem digitChar_ne_space : ∀ d, d < 16 → Nat.digitChar d ≠ ' ' := by
  decide

theorem toDigitsCore_append (f : Nat) : ∀ (n : Nat) (acc : List Char),
    Nat.toDigitsCore 16 f n acc = Nat.toDigitsCore 16 f n [] ++ acc := by
  induction f with
  | zero => intro n acc; simp [Nat.toDigitsCore]
  | succ f ih =>
    intro n acc
    simp only [Nat.toDigitsCore]
    by_cases h : n / 16 = 0
    · simp [h]
    · simp only [h, if_false]
      rw [ih (n / 16) (Nat.digitChar (n % 16) :: acc), ih (n / 16) [Nat.digitChar (n % 16)]]
      simp

theorem decodeHex_append_singleton (cs : List Char) (c : Char) :
    decodeHex (cs ++ [c]) = decodeHex cs * 16 + hexValue c := by
  simp [decodeHex, List.foldl_append]

theorem decodeHex_toDigitsCore (f : Nat) : ∀ n, n < f →
    decodeHex (Nat.toDigitsCore 16 f n []) = n := by
  induction f with
  | zero => intro n h; omega
  | succ f ih =>
    intro n hn
    simp only [Nat.toDigitsCore]
    by_cases h : n / 16 = 0
    · have hlt : n < 16 := by omega
      simp only [h, if_true]
      have : n % 16 = n := Nat.mod_eq_of_lt hlt
      rw [this]
      simp [decodeHex, hexValue_digitChar n hlt]
    · simp only [h, if_false]
      rw [toDigitsCore_append, decodeHex_append_singleton, ih (n / 16) (by omega),
        hexValue_digitChar _ (Nat.mod_lt _ (by decide))]
      omega

theorem decodeHex_replicate_zero (k : Nat) (cs : List Char) :
    decodeHex (List.replicate k '0' ++ cs) = decodeHex cs := by
  induction k with
  | zero => simp
  | succ k ih =>
    have h0 : hexValue '0' = 0 := by decide
    have : decodeHex (List.replicate k '0' ++ cs) = decodeHex cs := ih
    simp only [decodeHex, List.replicate_succ, List.cons_append, List.foldl_cons, h0] at this ⊢
    simpa using this

theorem toDigitsCore_all (P : Char → Prop) (hP : ∀ d, d < 16 → P (Nat.digitChar d))
    (f : Nat) : ∀ (n : Nat) (acc : List Char),
    (∀ c ∈ acc, P c) → ∀ c ∈ Nat.toDigitsCore 16 f n acc, P c := by
  induction f with
  | zero => intro n acc hacc c hc; exact hacc c (by simpa [Nat.toDigitsCore] using hc)
  | succ f ih =>
    intro n acc hacc c hc
    have hd : P (Nat.digitChar (n % 16)) := hP _ (Nat.mod_lt _ (by decide))
    have hacc1 : ∀ c ∈ Nat.digitChar (n % 16) :: acc, P c := by
      intro c hc
      rcases List.mem_cons.mp hc with h | h
      · rw [h]; exact hd
      · exact hacc c h
    simp only [Nat.toDigitsCore] at hc
    by_cases h : n / 16 = 0
    · simp only [h, if_true] at hc
      exact hacc1 c hc
    · simp only [h, if_false] at hc
      exact ih _ _ hacc1 c hc

theorem digitChar_mem_hex : ∀ d, d < 16 → Nat.digitChar d ∈ "0123456789abcdef".data := by
  decide

/-- The hexadecimal field denotes the address it was built from. -/
theorem decodeHex_formatHex010 (n : Nat) :
    decodeHex ((formatHex010 n).data.drop 2) = n := by
  simp only [formatHex010, List.drop_succ_cons, List.drop_zero, padLeft]
  rw [decodeHex_replicate_zero]
  exact decodeHex_toDigitsCore (n + 1) n (Nat.lt_succ_self n)

theorem formatHex010_no_space (n : Nat) : ∀ c ∈ (formatHex010 n).data, c ≠ ' ' := by
  intro c hc
  simp only [formatHex010, padLeft, List.mem_cons, List.mem_append, List.mem_replicate] at hc
  rcases hc with h | h | h | h
  · rw [h]; decide
  · rw [h]; decide
  · rw [h.2]; decide
  · exact toDigitsCore_all (fun c => c ≠ ' ') digitChar_ne_space _ _ [] (by simp) c h

theorem formatHex010_digits (n : Nat) :
    ∀ c ∈ (formatHex010 n).data.drop 2, c ∈ "0123456789abcdef".data := by
  intro c hc
  simp only [formatHex010, padLeft, List.drop_succ_cons, List.drop_zero, List.mem_append,
    List.mem_replicate] at hc
  rcases hc with h | h
  · rw [h.2]; decide
  · exact toDigitsCore_all (fun c => c ∈ "0123456789abcdef".data) digitChar_mem_hex _ _ []
      (by simp) c h

theorem formatHex010_length_ge (n : Nat) : 10 ≤ (formatHex010 n).length := by
  simp only [formatHex010, String.length, padLeft, List.length_cons, List.length_append,
    List.length_replicate]
  omega

theorem formatHex010_length_eq (n : Nat) (h : n < 2 ^ 32) : (formatHex010 n).length = 10 := by
  have hle : (Nat.toDigits 16 n).length ≤ 8 :=
    Nat.toDigitsCore_length 16 (by decide) (n + 1) n 8 (by norm_num at h ⊢; exact h) (by decide)
  simp only [formatHex010, String.length, padLeft, List.length_cons, List.length_append,
    List.length_replicate]
  omega

theorem formatHex010_injective (a b : Nat) (h : formatHex010 a = formatHex010 b) : a = b := by
  rw [← decodeHex_formatHex010 a, ← decodeHex_formatHex010 b, h]

theorem split_at_last (c : Char) : ∀ (l1 l2 r1 r2 : List Char),
    c ∉ r1 → c ∉ r2 → l1 ++ c :: r1 = l2 ++ c :: r2 → l1 = l2 ∧ r1 = r2 := by
  intro l1
  induction l1 with
  | nil =>
    intro l2 r1 r2 h1 h2 h
    cases l2 with
    | nil => simpa using h
    | cons x l2 =>
      simp only [List.nil_append, List.cons_append, List.cons.injEq] at h
      exact absurd (by rw [h.2]; simp) h1
  | cons y l1 ih =>
    intro l2 r1 r2 h1 h2 h
    cases l2 with
    | nil =>
      simp only [List.nil_append, List.cons_append, List.cons.injEq] at h
      exact absurd (by rw [← h.2]; simp) h2
    | cons x l2 =>
      simp only [List.cons_append, List.cons.injEq] at h
      obtain ⟨e1, e2⟩ := ih l2 r1 r2 h1 h2 h.2
      exact ⟨by rw [h.1, e1], e2⟩

theorem displayName_data (name : String) (addr : Nat) :
    (displayName name addr).data =
      (name.data ++ [' ', 'a', 't']) ++ ' ' :: (formatHex010 addr).data := by
  simp [displayName, String.data_append]

theorem displayName_injective (n1 n2 : String) (a1 a2 : Nat)
    (h : displayName n1 a1 = displayName n2 a2) : n1 = n2 ∧ a1 = a2 := by
  have hd := congrArg String.data h
  rw [displayName_data, displayName_data] at hd
  have hs1 : ' ' ∉ (formatHex010 a1).data := fun hm => formatHex010_no_space a1 _ hm rfl
  have hs2 : ' ' ∉ (formatHex010 a2).data := fun hm => formatHex010_no_space a2 _ hm rfl
  obtain ⟨e1, e2⟩ := split_at_last ' ' _ _ _ _ hs1 hs2 hd
  have en : n1.data = n2.data := List.append_cancel_right e1
  exact ⟨String.ext en, formatHex010_injective a1 a2 (String.ext e2)⟩

/-! ## Lemmas on `WindowLocals` -/

theorem resolvedNames_cons_invalid (v : SBValue) (rest : List SBValue)
    (h : v.GetLoadAddress = LLDB_INVALID_ADDRESS) :
    resolvedNames (v :: rest) = resolvedNames rest := by
  simp [resolvedNames, h]

theorem resolvedNames_cons_valid (v : SBValue) (rest : List SBValue)
    (h : v.GetLoadAddress ≠ LLDB_INVALID_ADDRESS) :
    resolvedNames (v :: rest) =
      displayName v.GetName v.GetLoadAddress :: resolvedNames rest := by
  simp [resolvedNames, h]

theorem resolvedValues_cons_invalid (v : SBValue) (rest : List SBValue)
    (m : List (String × SBValue)) (h : v.GetLoadAddress = LLDB_INVALID_ADDRESS) :
    resolvedValues (v :: rest) m = resolvedValues rest m := by
  simp [resolvedValues, h]

theorem resolvedValues_cons_valid (v : SBValue) (rest : List SBValue)
    (m : List (String × SBValue)) (h : v.GetLoadAddress ≠ LLDB_INVALID_ADDRESS) :
    resolvedValues (v :: rest) m =
      resolvedValues rest (mapAssign m (displayName v.GetName v.GetLoadAddress) v) := by
  simp [resolvedValues, h]

theorem rebuildLoop_cons_invalid (v : SBValue) (rest : List SBValue) (c : LocalsStatics)
    (h : v.GetLoadAddress = LLDB_INVALID_ADDRESS) :
    rebuildLoop (v :: rest) c = rebuildLoop rest c := by
  simp [rebuildLoop, h]

theorem rebuildLoop_cons_valid (v : SBValue) (rest : List SBValue) (c : LocalsStatics)
    (h : v.GetLoadAddress ≠ LLDB_INVALID_ADDRESS) :
    rebuildLoop (v :: rest) c = rebuildLoop rest
      { c with var_names := c.var_names ++ [displayName v.GetName v.GetLoadAddress],
               name_to_value :=
                 mapAssign c.name_to_value (displayName v.GetName v.GetLoadAddress) v } := by
  simp [rebuildLoop, h]

theorem rebuildLoop_var_names (vars : List SBValue) : ∀ c : LocalsStatics,
    (rebuildLoop vars c).var_names = c.var_names ++ resolvedNames vars := by
  induction vars with
  | nil => intro c; simp [rebuildLoop, resolvedNames]
  | cons v rest ih =>
    intro c
    by_cases h : v.GetLoadAddress = LLDB_INVALID_ADDRESS
    · rw [rebuildLoop_cons_invalid v rest c h, resolvedNames_cons_invalid v rest h, ih]
    · rw [rebuildLoop_cons_valid v rest c h, resolvedNames_cons_valid v rest h, ih]
      simp

theorem rebuildLoop_name_to_value (vars : List SBValue) : ∀ c : LocalsStatics,
    (rebuildLoop vars c).name_to_value = resolvedValues vars c.name_to_value := by
  induction vars with
  | nil => intro c; simp [rebuildLoop, resolvedValues]
  | cons v rest ih =>
    intro c
    by_cases h : v.GetLoadAddress = LLDB_INVALID_ADDRESS
    · rw [rebuildLoop_cons_invalid v rest c h, resolvedValues_cons_invalid v rest _ h, ih]
    · rw [rebuildLoop_cons_valid v rest c h, resolvedValues_cons_valid v rest _ h, ih]

theorem rebuildLoop_fixed (vars : List SBValue) : ∀ c : LocalsStatics,
    (rebuildLoop vars c).last_frame_id = c.last_frame_id ∧
    (rebuildLoop vars c).last_frame_pc = c.last_frame_pc ∧
    (rebuildLoop vars c).name_to_desc = c.name_to_desc ∧
    (rebuildLoop vars c).stream = c.stream := by
  induction vars with
  | nil => intro c; simp [rebuildLoop]
  | cons v rest ih =>
    intro c
    by_cases h : v.GetLoadAddress = LLDB_INVALID_ADDRESS
    · rw [rebuildLoop_cons_invalid v rest c h]
      exact ih c
    · rw [rebuildLoop_cons_valid v rest c h]
      exact ih _

theorem mem_mapKeys_resolvedValues (vars : List SBValue) :
    ∀ (m : List (String × SBValue)) (x : String),
      x ∈ mapKeys (resolvedValues vars m) ↔ x ∈ mapKeys m ∨ x ∈ resolvedNames vars := by
  induction vars with
  | nil => intro m x; simp [resolvedValues, resolvedNames]
  | cons v rest ih =>
    intro m x
    by_cases h : v.GetLoadAddress = LLDB_INVALID_ADDRESS
    · rw [resolvedValues_cons_invalid v rest m h, resolvedNames_cons_invalid v rest h]
      exact ih m x
    · rw [resolvedValues_cons_valid v rest m h, resolvedNames_cons_valid v rest h, ih,
        mem_mapKeys_mapAssign, List.mem_cons]
      tauto

theorem mem_resolvedValues (vars : List SBValue) :
    ∀ (m : List (String × SBValue)) (e : String × SBValue),
      e ∈ resolvedValues vars m → e ∈ m ∨
        (e.2 ∈ vars ∧ e.2.GetLoadAddress ≠ LLDB_INVALID_ADDRESS ∧
          e.1 = displayName e.2.GetName e.2.GetLoadAddress) := by
  induction vars with
  | nil => intro m e h; exact Or.inl (by simpa [resolvedValues] using h)
  | cons v rest ih =>
    intro m e h
    by_cases hv : v.GetLoadAddress = LLDB_INVALID_ADDRESS
    · rw [resolvedValues_cons_invalid v rest m hv] at h
      rcases ih m e h with h2 | ⟨h2, h3, h4⟩
      · exact Or.inl h2
      · exact Or.inr ⟨List.mem_cons_of_mem _ h2, h3, h4⟩
    · rw [resolvedValues_cons_valid v rest m hv] at h
      rcases ih _ e h with h2 | ⟨h2, h3, h4⟩
      · rcases mem_mapAssign _ _ _ _ h2 with h5 | h5
        · subst h5
          exact Or.inr ⟨by simp, hv, rfl⟩
        · exact Or.inl h5
      · exact Or.inr ⟨List.mem_cons_of_mem _ h2, h3, h4⟩

theorem refreshCache_of_mismatch (c : LocalsStatics) (frame : SBFrame)
    (h : frame.GetFrameID ≠ c.last_frame_id ∨ frame.GetPC ≠ c.last_frame_pc) :
    (refreshCache c frame).last_frame_id = frame.GetFrameID ∧
    (refreshCache c frame).last_frame_pc = frame.GetPC ∧
    (refreshCache c frame).var_names = resolvedNames frame.GetVariables ∧
    (refreshCache c frame).name_to_value = resolvedValues frame.GetVariables [] ∧
    (refreshCache c frame).name_to_desc = [] := by
  simp only [refreshCache, h, if_true]
  obtain ⟨h1, h2, h3, _⟩ := rebuildLoop_fixed frame.GetVariables
    { c with last_frame_id := frame.GetFrameID, last_frame_pc := frame.GetPC,
             var_names := [], name_to_value := [], name_to_desc := [] }
  refine ⟨h1, h2, ?_, ?_, h3⟩
  · rw [rebuildLoop_var_names]; rfl
  · rw [rebuildLoop_name_to_value]

theorem refreshCache_of_match (c : LocalsStatics) (frame : SBFrame)
    (h1 : frame.GetFrameID = c.last_frame_id) (h2 : frame.GetPC = c.last_frame_pc) :
    refreshCache c frame = c := by
  simp [refreshCache, h1, h2]

theorem string_empty_append (s : String) : "" ++ s = s := by
  apply String.ext
  simp [String.data_append]

theorem get_name_desc_hit (c : LocalsStatics) (n d : String)
    (h : mapFind c.name_to_desc n = some d) :
    get_name_desc c n = { value := some d, statics := c, described := [] } := by
  simp [get_name_desc, h]

theorem get_name_desc_miss (c : LocalsStatics) (n : String) (v : SBValue)
    (h : mapFind c.name_to_desc n = none) (hv : mapFind c.name_to_value n = some v) :
    get_name_desc c n =
      { value := some v.GetDescription
        statics := { c with stream := v.GetDescription
                            name_to_desc := mapAssign c.name_to_desc n v.GetDescription }
        described := [n] } := by
  simp [get_name_desc, h, hv, string_empty_append]

theorem get_name_desc_null (c : LocalsStatics) (n : String)
    (h : mapFind c.name_to_desc n = none) (hv : mapFind c.name_to_value n = none) :
    get_name_desc c n = { value := none, statics := c, described := [] } := by
  simp [get_name_desc, h, hv]

theorem get_name_desc_frameData (c : LocalsStatics) (n : String) :
    frameData (get_name_desc c n).statics = frameData c := by
  cases h : mapFind c.name_to_desc n with
  | some d => rw [get_name_desc_hit c n d h]
  | none =>
    cases hv : mapFind c.name_to_value n with
    | none => rw [get_name_desc_null c n h hv]
    | some v => rw [get_name_desc_miss c n v h hv]; rfl

theorem drawVars_frameData (T : String → Bool) (names : List String) :
    ∀ (c : LocalsStatics) (rows : List LocalsRow) (described : List String),
      frameData (drawVars T names c rows described).1 = frameData c := by
  induction names with
  | nil => intro c rows described; rfl
  | cons n rest ih =>
    intro c rows described
    by_cases h : T n = true
    · simp only [drawVars, h, if_true]
      rw [ih, get_name_desc_frameData]
    · simp only [drawVars, h]
      exact ih c _ _

theorem get_name_desc_value_of_mem (c : LocalsStatics) (n : String)
    (h : n ∈ mapKeys c.name_to_value) : ∃ d, (get_name_desc c n).value = some d := by
  cases hd : mapFind c.name_to_desc n with
  | some d => exact ⟨d, by rw [get_name_desc_hit c n d hd]⟩
  | none =>
    obtain ⟨v, hv⟩ := mapFind_isSome_of_mem c.name_to_value n h
    exact ⟨v.GetDescription, by rw [get_name_desc_miss c n v hd hv]⟩

theorem get_name_desc_persist (c : LocalsStatics) (m n d : String)
    (h : mapFind c.name_to_desc n = some d) :
    mapFind (get_name_desc c m).statics.name_to_desc n = some d ∧
      n ∉ (get_name_desc c m).described := by
  cases hd : mapFind c.name_to_desc m with
  | some d1 => rw [get_name_desc_hit c m d1 hd]; exact ⟨h, by simp⟩
  | none =>
    cases hv : mapFind c.name_to_value m with
    | none => rw [get_name_desc_null c m hd hv]; exact ⟨h, by simp⟩
    | some v =>
      rw [get_name_desc_miss c m v hd hv]
      have hne : m ≠ n := by
        intro e
        rw [e, h] at hd
        exact Option.noConfusion hd
      refine ⟨?_, ?_⟩
      · show mapFind (mapAssign c.name_to_desc m v.GetDescription) n = some d
        rw [mapFind_mapAssign_ne _ _ _ _ hne]
        exact h
      · simpa using fun e : n = m => hne e.symm

theorem get_name_desc_origin (c : LocalsStatics) (m n d : String)
    (h : mapFind (get_name_desc c m).statics.name_to_desc n = some d) :
    mapFind c.name_to_desc n = some d ∨
      (n = m ∧ ∃ v, mapFind c.name_to_value n = some v ∧ d = v.GetDescription) := by
  cases hd : mapFind c.name_to_desc m with
  | some d1 => rw [get_name_desc_hit c m d1 hd] at h; exact Or.inl h
  | none =>
    cases hv : mapFind c.name_to_value m with
    | none => rw [get_name_desc_null c m hd hv] at h; exact Or.inl h
    | some v =>
      rw [get_name_desc_miss c m v hd hv] at h
      have h1 : mapFind (mapAssign c.name_to_desc m v.GetDescription) n = some d := h
      by_cases e : m = n
      · subst e
        rw [mapFind_mapAssign_self] at h1
        exact Or.inr ⟨rfl, v, hv, (Option.some.inj h1).symm⟩
      · rw [mapFind_mapAssign_ne _ _ _ _ e] at h1
        exact Or.inl h1

theorem drawVars_persist (T : String → Bool) (names : List String) :
    ∀ (c : LocalsStatics) (rows : List LocalsRow) (described : List String) (n d : String),
      mapFind c.name_to_desc n = some d → n ∉ described →
      mapFind (drawVars T names c rows described).1.name_to_desc n = some d ∧
        n ∉ (drawVars T names c rows described).2.2 := by
  induction names with
  | nil => intro c rows described n d h hn; exact ⟨h, hn⟩
  | cons m rest ih =>
    intro c rows described n d h hn
    by_cases ht : T m = true
    · simp only [drawVars, ht, if_true]
      obtain ⟨h1, h2⟩ := get_name_desc_persist c m n d h
      exact ih _ _ _ n d h1 (by simp [hn, h2])
    · simp only [drawVars, ht]
      exact ih c _ _ n d h hn

theorem drawVars_persist_find (T : String → Bool) (names : List String) :
    ∀ (c : LocalsStatics) (rows : List LocalsRow) (described : List String) (n d : String),
      mapFind c.name_to_desc n = some d →
      mapFind (drawVars T names c rows described).1.name_to_desc n = some d := by
  induction names with
  | nil => intro c rows described n d h; exact h
  | cons m rest ih =>
    intro c rows described n d h
    by_cases ht : T m = true
    · simp only [drawVars, ht, if_true]
      exact ih _ _ _ n d (get_name_desc_persist c m n d h).1
    · simp only [drawVars, ht]
      exact ih c _ _ n d h

theorem drawVars_origin (T : String → Bool) (names : List String) :
    ∀ (c : LocalsStatics) (rows : List LocalsRow) (described : List String) (n d : String),
      mapFind (drawVars T names c rows described).1.name_to_desc n = some d →
      mapFind c.name_to_desc n = some d ∨
        (n ∈ names ∧ T n = true ∧
          ∃ v, mapFind c.name_to_value n = some v ∧ d = v.GetDescription) := by
  induction names with
  | nil => intro c rows described n d h; exact Or.inl h
  | cons m rest ih =>
    intro c rows described n d h
    by_cases ht : T m = true
    · simp only [drawVars, ht, if_true] at h
      have hfd := get_name_desc_frameData c m
      have hval : (get_name_desc c m).statics.name_to_value = c.name_to_value :=
        congrArg (fun q => q.2.2.2) hfd
      rcases ih _ _ _ n d h with h1 | ⟨h1, h2, v, h3, h4⟩
      · rcases get_name_desc_origin c m n d h1 with h5 | ⟨h5, v, h6, h7⟩
        · exact Or.inl h5
        · exact Or.inr ⟨by simp [h5], by rw [h5]; exact ht, v, h6, h7⟩
      · rw [hval] at h3
        exact Or.inr ⟨List.mem_cons_of_mem _ h1, h2, v, h3, h4⟩
    · simp only [drawVars, ht] at h
      rcases ih c _ _ n d h with h1 | ⟨h1, h2, v, h3, h4⟩
      · exact Or.inl h1
      · exact Or.inr ⟨List.mem_cons_of_mem _ h1, h2, v, h3, h4⟩

theorem drawVars_rows_text (T : String → Bool) (names : List String) :
    ∀ (c : LocalsStatics) (rows : List LocalsRow) (described : List String),
      (∀ n ∈ names, n ∈ mapKeys c.name_to_value) → (∀ r ∈ rows, rowHasText r) →
      ∀ r ∈ (drawVars T names c rows described).2.1, rowHasText r := by
  induction names with
  | nil => intro c rows described _ hr; exact hr
  | cons m rest ih =>
    intro c rows described hk hr
    have hval : (get_name_desc c m).statics.name_to_value = c.name_to_value :=
      congrArg (fun q => q.2.2.2) (get_name_desc_frameData c m)
    by_cases ht : T m = true
    · simp only [drawVars, ht, if_true]
      apply ih
      · intro n hn
        rw [hval]
        exact hk n (List.mem_cons_of_mem _ hn)
      · intro r hmem
        rcases List.mem_append.mp hmem with h1 | h1
        · exact hr r h1
        · rw [List.mem_singleton.mp h1]
          intro _
          exact get_name_desc_value_of_mem c m (hk m (by simp))
    · simp only [drawVars, ht]
      apply ih
      · intro n hn
        exact hk n (List.mem_cons_of_mem _ hn)
      · intro r hmem
        rcases List.mem_append.mp hmem with h1 | h1
        · exact hr r h1
        · rw [List.mem_singleton.mp h1]
          intro h2
          simp at h2

theorem drawVars_labels (T : String → Bool) (names : List String) :
    ∀ (c : LocalsStatics) (rows : List LocalsRow) (described : List String),
      (drawVars T names c rows described).2.1.map LocalsRow.label =
        rows.map LocalsRow.label ++ names := by
  induction names with
  | nil => intro c rows described; simp [drawVars]
  | cons m rest ih =>
    intro c rows described
    by_cases ht : T m = true
    · simp only [drawVars, ht, if_true]
      rw [ih]
      simp
    · have hf : T m = false := by simpa using ht
      simp only [drawVars, hf, Bool.false_eq_true, if_false]
      rw [ih]
      simp

theorem stoppedFrame_of_stopped (state : State) (ts : TargetState) (ps : ProcessState)
    (h1 : state.target_state = some ts) (h2 : ts.process_state = some ps)
    (h3 : ps.GetState = .eStateStopped) : stoppedFrame state = some ps.GetSelectedFrame := by
  simp [stoppedFrame, h1, h2, h3]

theorem WindowLocals_of_none (c : LocalsStatics) (state : State) (T : String → Bool)
    (h : stoppedFrame state = none) :
    (WindowLocals c state T).statics = c ∧ (WindowLocals c state T).described = [] ∧
      ∀ rows, (WindowLocals c state T).view ≠ .vars rows := by
  cases h1 : state.target_state with
  | none => simp [WindowLocals, h1]
  | some ts =>
    cases h2 : ts.process_state with
    | none => simp [WindowLocals, h1, h2]
    | some ps =>
      by_cases h3 : ps.GetState = .eStateStopped
      · simp [stoppedFrame, h1, h2, h3] at h
      · simp [WindowLocals, h1, h2, h3]

theorem WindowLocals_of_some (c : LocalsStatics) (state : State) (T : String → Bool)
    (frame : SBFrame) (h : stoppedFrame state = some frame) :
    WindowLocals c state T =
      { statics := (drawVars T (refreshCache c frame).var_names (refreshCache c frame) [] []).1
        view := .vars
          (drawVars T (refreshCache c frame).var_names (refreshCache c frame) [] []).2.1
        described :=
          (drawVars T (refreshCache c frame).var_names (refreshCache c frame) [] []).2.2 } := by
  cases h1 : state.target_state with
  | none => simp [stoppedFrame, h1] at h
  | some ts =>
    cases h2 : ts.process_state with
    | none => simp [stoppedFrame, h1, h2] at h
    | some ps =>
      by_cases h3 : ps.GetState = .eStateStopped
      · simp only [stoppedFrame, h1, h2, h3, if_true, Option.some.injEq] at h
        subst h
        simp [WindowLocals, h1, h2, h3]
      · simp [stoppedFrame, h1, h2, h3] at h

/-! ### The stream does not influence the cache -/

theorem get_name_desc_stream (c : LocalsStatics) (n s : String) :
    ∃ s1, get_name_desc { c with stream := s } n =
      { value := (get_name_desc c n).value
        statics := { (get_name_desc c n).statics with stream := s1 }
        described := (get_name_desc c n).described } := by
  cases hd : mapFind c.name_to_desc n with
  | some d =>
    refine ⟨s, ?_⟩
    rw [get_name_desc_hit c n d hd, get_name_desc_hit { c with stream := s } n d hd]
  | none =>
    cases hv : mapFind c.name_to_value n with
    | none =>
      refine ⟨s, ?_⟩
      rw [get_name_desc_null c n hd hv, get_name_desc_null { c with stream := s } n hd hv]
    | some v =>
      refine ⟨v.GetDescription, ?_⟩
      rw [get_name_desc_miss c n v hd hv, get_name_desc_miss { c with stream := s } n v hd hv]

theorem drawVars_stream (T : String → Bool) (names : List String) :
    ∀ (c : LocalsStatics) (rows : List LocalsRow) (described : List String) (s : String),
      ∃ s1, drawVars T names { c with stream := s } rows described =
        ({ (drawVars T names c rows described).1 with stream := s1 },
          (drawVars T names c rows described).2.1,
          (drawVars T names c rows described).2.2) := by
  induction names with
  | nil => intro c rows described s; exact ⟨s, rfl⟩
  | cons m rest ih =>
    intro c rows described s
    by_cases ht : T m = true
    · obtain ⟨s1, h1⟩ := get_name_desc_stream c m s
      simp only [drawVars, ht, if_true, h1]
      exact ih _ _ _ s1
    · have hf : T m = false := by simpa using ht
      simp only [drawVars, hf, Bool.false_eq_true, if_false]
      exact ih _ _ _ s

theorem rebuildLoop_stream (vars : List SBValue) : ∀ (c : LocalsStatics) (s : String),
    rebuildLoop vars { c with stream := s } = { rebuildLoop vars c with stream := s } := by
  induction vars with
  | nil => intro c s; rfl
  | cons v rest ih =>
    intro c s
    by_cases h : v.GetLoadAddress = LLDB_INVALID_ADDRESS
    · rw [rebuildLoop_cons_invalid v rest _ h, rebuildLoop_cons_invalid v rest _ h, ih]
    · rw [rebuildLoop_cons_valid v rest _ h, rebuildLoop_cons_valid v rest _ h]
      exact ih { c with var_names := c.var_names ++ [displayName v.GetName v.GetLoadAddress],
                        name_to_value := mapAssign c.name_to_value
                          (displayName v.GetName v.GetLoadAddress) v } s

theorem refreshCache_eq_rebuiltFor (c : LocalsStatics) (frame : SBFrame)
    (h : frame.GetFrameID ≠ c.last_frame_id ∨ frame.GetPC ≠ c.last_frame_pc) :
    refreshCache c frame = { rebuiltFor frame with stream := c.stream } := by
  simp only [refreshCache, h, if_true, rebuiltFor]
  rw [← rebuildLoop_stream]

theorem WindowLocals_of_mismatch (c : LocalsStatics) (state : State) (T : String → Bool)
    (frame : SBFrame) (h : stoppedFrame state = some frame)
    (hkey : frame.GetFrameID ≠ c.last_frame_id ∨ frame.GetPC ≠ c.last_frame_pc) :
    cacheContent (WindowLocals c state T).statics =
        cacheContent
          (drawVars T (rebuiltFor frame).var_names (rebuiltFor frame) [] []).1 ∧
      (WindowLocals c state T).view =
        .vars (drawVars T (rebuiltFor frame).var_names (rebuiltFor frame) [] []).2.1 ∧
      (WindowLocals c state T).described =
        (drawVars T (rebuiltFor frame).var_names (rebuiltFor frame) [] []).2.2 := by
  rw [WindowLocals_of_some c state T frame h, refreshCache_eq_rebuiltFor c frame hkey]
  obtain ⟨s1, h1⟩ := drawVars_stream T (rebuiltFor frame).var_names (rebuiltFor frame) [] []
    c.stream
  rw [h1]
  exact ⟨rfl, rfl, rfl⟩

/-! ### Accumulators of the drawing loop -/

theorem drawVars_acc (T : String → Bool) (names : List String) :
    ∀ (c : LocalsStatics) (rows : List LocalsRow) (described : List String),
      drawVars T names c rows described =
        ((drawVars T names c [] []).1, rows ++ (drawVars T names c [] []).2.1,
          described ++ (drawVars T names c [] []).2.2) := by
  induction names with
  | nil => intro c rows described; simp [drawVars]
  | cons m rest ih =>
    intro c rows described
    by_cases ht : T m = true
    · simp only [drawVars, ht, if_true]
      rw [ih _ (rows ++ _) (described ++ _), ih _ ([] ++ _) ([] ++ _)]
      simp
    · have hf : T m = false := by simpa using ht
      simp only [drawVars, hf, Bool.false_eq_true, if_false]
      rw [ih _ (rows ++ _) described, ih _ ([] ++ _) []]
      simp

theorem drawVars_log (T : String → Bool) (names : List String) :
    ∀ (c : LocalsStatics) (rows : List LocalsRow) (described : List String),
      logStored c described →
      logStored (drawVars T names c rows described).1
          (drawVars T names c rows described).2.2 ∧
        ∀ n ∈ (drawVars T names c rows described).2.2, n ∈ described ∨
          (mapFind c.name_to_desc n = none ∧ ∃ v, mapFind c.name_to_value n = some v ∧
            mapFind (drawVars T names c rows described).1.name_to_desc n =
              some v.GetDescription) := by
  induction names with
  | nil => intro c rows described h; exact ⟨h, fun n hn => Or.inl hn⟩
  | cons m rest ih =>
    intro c rows described h
    by_cases ht : T m = true
    · simp only [drawVars, ht, if_true]
      cases hd : mapFind c.name_to_desc m with
      | some d =>
        rw [get_name_desc_hit c m d hd]
        simpa using ih c _ described h
      | none =>
        cases hv : mapFind c.name_to_value m with
        | none =>
          rw [get_name_desc_null c m hd hv]
          simpa using ih c _ described h
        | some v =>
          have hmiss := get_name_desc_miss c m v hd hv
          have hself : mapFind (get_name_desc c m).statics.name_to_desc m =
              some v.GetDescription := by
            rw [hmiss]
            exact mapFind_mapAssign_self _ _ _
          have hval : (get_name_desc c m).statics.name_to_value = c.name_to_value :=
            congrArg (fun q => q.2.2.2) (get_name_desc_frameData c m)
          have hdesc : (get_name_desc c m).described = [m] := by rw [hmiss]
          have hnot : m ∉ described := by
            intro hm
            obtain ⟨d, hd1⟩ := h.2 m hm
            rw [hd] at hd1
            exact Option.noConfusion hd1
          have hstored : logStored (get_name_desc c m).statics (described ++ [m]) := by
            refine ⟨?_, ?_⟩
            · exact List.Nodup.append h.1 (List.nodup_singleton m)
                (by
                  intro x hx hx1
                  rw [List.mem_singleton.mp hx1] at hx
                  exact hnot hx)
            · intro n hn
              rcases List.mem_append.mp hn with h1 | h1
              · obtain ⟨d, hd1⟩ := h.2 n h1
                exact ⟨d, (get_name_desc_persist c m n d hd1).1⟩
              · rw [List.mem_singleton.mp h1]
                exact ⟨_, hself⟩
          rw [hdesc]
          obtain ⟨r1, r2⟩ := ih (get_name_desc c m).statics
            (rows ++ [{ label := m, opened := true, text := (get_name_desc c m).value }])
            (described ++ [m]) hstored
          refine ⟨r1, ?_⟩
          intro n hn
          rcases r2 n hn with h1 | ⟨h1, w, h2, h3⟩
          · rcases List.mem_append.mp h1 with h4 | h4
            · exact Or.inl h4
            · rw [List.mem_singleton.mp h4]
              refine Or.inr ⟨hd, v, hv, ?_⟩
              exact drawVars_persist_find T rest _ _ _ m _ hself
          · refine Or.inr ⟨?_, w, by rw [← hval]; exact h2, h3⟩
            have hne : m ≠ n := by
              intro e
              rw [← e, hself] at h1
              exact Option.noConfusion h1
            rw [hmiss] at h1
            have h5 : mapFind (mapAssign c.name_to_desc m v.GetDescription) n = none := h1
            rw [mapFind_mapAssign_ne _ _ _ _ hne] at h5
            exact h5
    · have hf : T m = false := by simpa using ht
      simp only [drawVars, hf, Bool.false_eq_true, if_false]
      exact ih c _ described h

/-! ### Descriptions come from the cached values -/

theorem get_name_desc_sound (c : LocalsStatics) (m : String) (h : descSound c) :
    descSound (get_name_desc c m).statics ∧
      ∀ t, (get_name_desc c m).value = some t →
        ∃ v, mapFind c.name_to_value m = some v ∧ t = v.GetDescription := by
  have hval : (get_name_desc c m).statics.name_to_value = c.name_to_value :=
    congrArg (fun q => q.2.2.2) (get_name_desc_frameData c m)
  refine ⟨?_, ?_⟩
  · intro n d hn
    rw [hval]
    rcases get_name_desc_origin c m n d hn with h1 | ⟨_, v, h2, h3⟩
    · exact h n d h1
    · exact ⟨v, h2, h3⟩
  · intro t ht
    cases hd : mapFind c.name_to_desc m with
    | some d =>
      rw [get_name_desc_hit c m d hd] at ht
      have : d = t := Option.some.inj ht
      rw [← this]
      exact h m d hd
    | none =>
      cases hv : mapFind c.name_to_value m with
      | none =>
        rw [get_name_desc_null c m hd hv] at ht
        exact Option.noConfusion ht
      | some v =>
        rw [get_name_desc_miss c m v hd hv] at ht
        exact ⟨v, rfl, (Option.some.inj ht).symm⟩

theorem drawVars_rows_sound (T : String → Bool) (names : List String) :
    ∀ (c : LocalsStatics) (rows : List LocalsRow) (described : List String),
      descSound c → (∀ r ∈ rows, rowSound c.name_to_value r) →
      descSound (drawVars T names c rows described).1 ∧
        ∀ r ∈ (drawVars T names c rows described).2.1, rowSound c.name_to_value r := by
  induction names with
  | nil => intro c rows described h hr; exact ⟨h, hr⟩
  | cons m rest ih =>
    intro c rows described h hr
    have hval : (get_name_desc c m).statics.name_to_value = c.name_to_value :=
      congrArg (fun q => q.2.2.2) (get_name_desc_frameData c m)
    by_cases ht : T m = true
    · simp only [drawVars, ht, if_true]
      obtain ⟨g1, g2⟩ := get_name_desc_sound c m h
      have := ih (get_name_desc c m).statics
        (rows ++ [{ label := m, opened := true, text := (get_name_desc c m).value }])
        (described ++ (get_name_desc c m).described) g1
        (by
          intro r hmem
          rw [hval]
          rcases List.mem_append.mp hmem with h1 | h1
          · exact hr r h1
          · rw [List.mem_singleton.mp h1]
            exact g2)
      rw [hval] at this
      exact this
    · have hf : T m = false := by simpa using ht
      simp only [drawVars, hf, Bool.false_eq_true, if_false]
      apply ih c _ described h
      intro r hmem
      rcases List.mem_append.mp hmem with h1 | h1
      · exact hr r h1
      · rw [List.mem_singleton.mp h1]
        intro t ht1
        exact Option.noConfusion ht1

/-! ### Sequences of calls of `WindowLocals` -/

theorem runLocals_kept (calls : List LocalsCall) :
    ∀ (c : LocalsStatics) (log : List String), logStored c log → keyKept c calls →
      logStored (runLocals c calls).1 (log ++ (runLocals c calls).2) ∧
      frameData (runLocals c calls).1 = frameData c ∧
      (∀ n d, mapFind c.name_to_desc n = some d →
        mapFind (runLocals c calls).1.name_to_desc n = some d ∧
          n ∉ (runLocals c calls).2) ∧
      (∀ n ∈ (runLocals c calls).2, mapFind c.name_to_desc n = none ∧
        ∃ v, mapFind c.name_to_value n = some v ∧
          mapFind (runLocals c calls).1.name_to_desc n = some v.GetDescription) := by
  induction calls with
  | nil =>
    intro c log h _
    simp only [runLocals, List.append_nil]
    exact ⟨h, trivial, fun n d hn => ⟨hn, by simp⟩, fun n hn => by simp at hn⟩
  | cons call rest ih =>
    intro c log h hk
    have hrest : ∀ c1, frameData c1 = frameData c → keyKept c1 rest := by
      intro c1 hfd call1 hmem frame hf
      have h1 : c1.last_frame_id = c.last_frame_id := congrArg (fun q => q.1) hfd
      have h2 : c1.last_frame_pc = c.last_frame_pc := congrArg (fun q => q.2.1) hfd
      rw [h1, h2]
      exact hk call1 (List.mem_cons_of_mem _ hmem) frame hf
    cases hs : stoppedFrame call.state with
    | none =>
      obtain ⟨e1, e2, _⟩ := WindowLocals_of_none c call.state call.TreeNode hs
      simp only [runLocals, e1, e2, List.nil_append]
      exact ih c log h (hrest c rfl)
    | some frame =>
      obtain ⟨k1, k2⟩ := hk call (by simp) frame hs
      have hw := WindowLocals_of_some c call.state call.TreeNode frame hs
      rw [refreshCache_of_match c frame k1 k2] at hw
      simp only [runLocals, hw]
      have hacc := drawVars_acc call.TreeNode c.var_names c [] log
      obtain ⟨l1, l2⟩ := drawVars_log call.TreeNode c.var_names c [] log h
      rw [hacc] at l1 l2
      simp only at l1 l2
      have hfd := drawVars_frameData call.TreeNode c.var_names c [] []
      obtain ⟨r1, r2, r3, r4⟩ := ih (drawVars call.TreeNode c.var_names c [] []).1
        (log ++ (drawVars call.TreeNode c.var_names c [] []).2.2) l1 (hrest _ hfd)
      have hval : (drawVars call.TreeNode c.var_names c [] []).1.name_to_value =
          c.name_to_value := congrArg (fun q => q.2.2.2) hfd
      refine ⟨by rw [← List.append_assoc]; exact r1, r2.trans hfd, ?_, ?_⟩
      · intro n d hn
        obtain ⟨p1, p2⟩ := drawVars_persist call.TreeNode c.var_names c [] [] n d hn (by simp)
        obtain ⟨p3, p4⟩ := r3 n d p1
        exact ⟨p3, by simp [p2, p4]⟩
      · intro n hn
        rcases List.mem_append.mp hn with h1 | h1
        · obtain ⟨l3, l4⟩ := drawVars_log call.TreeNode c.var_names c [] []
            ⟨List.nodup_nil, by simp⟩
          rcases l4 n h1 with h2 | ⟨h2, v, h3, h4⟩
          · simp at h2
          · exact ⟨h2, v, h3, (r3 n _ h4).1⟩
        · obtain ⟨q1, v, q2, q3⟩ := r4 n h1
          rw [hval] at q2
          refine ⟨?_, v, q2, q3⟩
          cases hc : mapFind c.name_to_desc n with
          | none => rfl
          | some d =>
            have := drawVars_persist_find call.TreeNode c.var_names c [] [] n d hc
            rw [q1] at this
            exact Option.noConfusion this

theorem get_name_desc_origin_log (c : LocalsStatics) (m n d : String)
    (h : mapFind (get_name_desc c m).statics.name_to_desc n = some d) :
    mapFind c.name_to_desc n = some d ∨ n ∈ (get_name_desc c m).described := by
  cases hd : mapFind c.name_to_desc m with
  | some d1 => rw [get_name_desc_hit c m d1 hd] at h; exact Or.inl h
  | none =>
    cases hv : mapFind c.name_to_value m with
    | none => rw [get_name_desc_null c m hd hv] at h; exact Or.inl h
    | some v =>
      rw [get_name_desc_miss c m v hd hv] at h ⊢
      have h1 : mapFind (mapAssign c.name_to_desc m v.GetDescription) n = some d := h
      by_cases e : m = n
      · exact Or.inr (by simp [e])
      · rw [mapFind_mapAssign_ne _ _ _ _ e] at h1
        exact Or.inl h1

theorem drawVars_origin_log (T : String → Bool) (names : List String) :
    ∀ (c : LocalsStatics) (rows : List LocalsRow) (described : List String) (n d : String),
      mapFind (drawVars T names c rows described).1.name_to_desc n = some d →
      mapFind c.name_to_desc n = some d ∨ n ∈ (drawVars T names c rows described).2.2 := by
  induction names with
  | nil => intro c rows described n d h; exact Or.inl h
  | cons m rest ih =>
    intro c rows described n d h
    by_cases ht : T m = true
    · simp only [drawVars, ht, if_true] at h ⊢
      rcases ih _ _ _ n d h with h1 | h1
      · rcases get_name_desc_origin_log c m n d h1 with h2 | h2
        · exact Or.inl h2
        · refine Or.inr ?_
          rw [drawVars_acc]
          simp [h2]
      · exact Or.inr h1
    · have hf : T m = false := by simpa using ht
      simp only [drawVars, hf, Bool.false_eq_true, if_false] at h ⊢
      exact ih c _ _ n d h

theorem refreshCache_key (c : LocalsStatics) (frame : SBFrame) :
    (refreshCache c frame).last_frame_id = frame.GetFrameID ∧
      (refreshCache c frame).last_frame_pc = frame.GetPC := by
  by_cases h : frame.GetFrameID ≠ c.last_frame_id ∨ frame.GetPC ≠ c.last_frame_pc
  · obtain ⟨h1, h2, _⟩ := refreshCache_of_mismatch c frame h
    exact ⟨h1, h2⟩
  · have h1 : frame.GetFrameID = c.last_frame_id := by
      by_contra hn; exact h (Or.inl hn)
    have h2 : frame.GetPC = c.last_frame_pc := by
      by_contra hn; exact h (Or.inr hn)
    rw [refreshCache_of_match c frame h1 h2]
    exact ⟨h1.symm, h2.symm⟩

theorem cacheConsistent_refreshCache (c : LocalsStatics) (frame : SBFrame)
    (h : cacheConsistent c) : cacheConsistent (refreshCache c frame) := by
  by_cases hk : frame.GetFrameID ≠ c.last_frame_id ∨ frame.GetPC ≠ c.last_frame_pc
  · obtain ⟨_, _, h3, h4, h5⟩ := refreshCache_of_mismatch c frame hk
    refine ⟨?_, ?_⟩
    · intro n hn
      rw [h3] at hn
      rw [h4, mem_mapKeys_resolvedValues]
      exact Or.inr hn
    · intro n hn
      rw [h5] at hn
      simp [mapKeys] at hn
  · have h1 : frame.GetFrameID = c.last_frame_id := by
      by_contra hn; exact hk (Or.inl hn)
    have h2 : frame.GetPC = c.last_frame_pc := by
      by_contra hn; exact hk (Or.inr hn)
    rw [refreshCache_of_match c frame h1 h2]
    exact h

theorem cacheConsistent_drawVars (T : String → Bool) (c : LocalsStatics)
    (names : List String) (rows : List LocalsRow) (described : List String)
    (h : cacheConsistent c) : cacheConsistent (drawVars T names c rows described).1 := by
  have hfd := drawVars_frameData T names c rows described
  have hnames : (drawVars T names c rows described).1.var_names = c.var_names :=
    congrArg (fun q => q.2.2.1) hfd
  have hval : (drawVars T names c rows described).1.name_to_value = c.name_to_value :=
    congrArg (fun q => q.2.2.2) hfd
  refine ⟨?_, ?_⟩
  · rw [hnames, hval]
    exact h.1
  · intro n hn
    rw [hval]
    obtain ⟨d, hd⟩ := mapFind_isSome_of_mem _ n hn
    rcases drawVars_origin T names c rows described n d hd with h1 | ⟨_, _, v, h2, _⟩
    · exact h.2 n (mem_mapKeys_of_mapFind _ n d h1)
    · exact mem_mapKeys_of_mapFind _ n v h2

theorem cacheConsistent_WindowLocals (c : LocalsStatics) (state : State)
    (T : String → Bool) (h : cacheConsistent c) :
    cacheConsistent (WindowLocals c state T).statics := by
  cases hs : stoppedFrame state with
  | none => rw [(WindowLocals_of_none c state T hs).1]; exact h
  | some frame =>
    rw [WindowLocals_of_some c state T frame hs]
    exact cacheConsistent_drawVars T _ _ _ _ (cacheConsistent_refreshCache c frame h)

theorem cacheConsistent_runLocals (calls : List LocalsCall) :
    ∀ c : LocalsStatics, cacheConsistent c → cacheConsistent (runLocals c calls).1 := by
  induction calls with
  | nil => intro c h; exact h
  | cons call rest ih =>
    intro c h
    exact ih _ (cacheConsistent_WindowLocals c call.state call.TreeNode h)

theorem WindowLocals_rows_text (c : LocalsStatics) (state : State) (T : String → Bool)
    (h : cacheConsistent c) (rows : List LocalsRow)
    (hv : (WindowLocals c state T).view = .vars rows) : ∀ r ∈ rows, rowHasText r := by
  cases hs : stoppedFrame state with
  | none => exact absurd hv ((WindowLocals_of_none c state T hs).2.2 rows)
  | some frame =>
    rw [WindowLocals_of_some c state T frame hs] at hv
    have e : (drawVars T (refreshCache c frame).var_names (refreshCache c frame) [] []).2.1 =
        rows := by
      simpa using hv
    rw [← e]
    exact drawVars_rows_text T _ _ [] [] (cacheConsistent_refreshCache c frame h).1 (by simp)

/-! ## The frame/variable cache of `WindowLocals` -/

/-- C1: when the selected frame of a stopped process differs from the cached
key in frame id or pc, after the call the key is the frame's (frame id, pc),
the name list and the value map are those built from the frame's enumerated
variables alone, every entry of the description map was computed by the
backend during this call for an open node from the value cached under that
name, and the whole outcome is the same for any other prior content that also
mismatches the frame. -/
theorem WindowLocals_rebuilds_on_key_mismatch (c : LocalsStatics) (state : State)
    (ts : TargetState) (ps : ProcessState) (TreeNode : String → Bool)
    (h1 : state.target_state = some ts) (h2 : ts.process_state = some ps)
    (h3 : ps.GetState = .eStateStopped)
    (hkey : ps.GetSelectedFrame.GetFrameID ≠ c.last_frame_id ∨
      ps.GetSelectedFrame.GetPC ≠ c.last_frame_pc) :
    (WindowLocals c state TreeNode).statics.last_frame_id = ps.GetSelectedFrame.GetFrameID ∧
    (WindowLocals c state TreeNode).statics.last_frame_pc = ps.GetSelectedFrame.GetPC ∧
    (WindowLocals c state TreeNode).statics.var_names =
      resolvedNames ps.GetSelectedFrame.GetVariables ∧
    (WindowLocals c state TreeNode).statics.name_to_value =
      resolvedValues ps.GetSelectedFrame.GetVariables [] ∧
    (∀ n d, mapFind (WindowLocals c state TreeNode).statics.name_to_desc n = some d →
      n ∈ (WindowLocals c state TreeNode).described ∧ TreeNode n = true ∧
      ∃ v, mapFind (WindowLocals c state TreeNode).statics.name_to_value n = some v ∧
        d = v.GetDescription) ∧
    (∀ c2 : LocalsStatics,
      (ps.GetSelectedFrame.GetFrameID ≠ c2.last_frame_id ∨
        ps.GetSelectedFrame.GetPC ≠ c2.last_frame_pc) →
      cacheContent (WindowLocals c2 state TreeNode).statics =
          cacheContent (WindowLocals c state TreeNode).statics ∧
        (WindowLocals c2 state TreeNode).view = (WindowLocals c state TreeNode).view ∧
        (WindowLocals c2 state TreeNode).described =
          (WindowLocals c state TreeNode).described) := by
  have hs := stoppedFrame_of_stopped state ts ps h1 h2 h3
  have hw := WindowLocals_of_some c state TreeNode _ hs
  obtain ⟨k1, k2, k3, k4, k5⟩ := refreshCache_of_mismatch c ps.GetSelectedFrame hkey
  have hfd := drawVars_frameData TreeNode (refreshCache c ps.GetSelectedFrame).var_names
    (refreshCache c ps.GetSelectedFrame) [] []
  have e1 : (WindowLocals c state TreeNode).statics.last_frame_id =
      (refreshCache c ps.GetSelectedFrame).last_frame_id := by
    rw [hw]; exact congrArg (fun q => q.1) hfd
  have e2 : (WindowLocals c state TreeNode).statics.last_frame_pc =
      (refreshCache c ps.GetSelectedFrame).last_frame_pc := by
    rw [hw]; exact congrArg (fun q => q.2.1) hfd
  have e3 : (WindowLocals c state TreeNode).statics.var_names =
      (refreshCache c ps.GetSelectedFrame).var_names := by
    rw [hw]; exact congrArg (fun q => q.2.2.1) hfd
  have e4 : (WindowLocals c state TreeNode).statics.name_to_value =
      (refreshCache c ps.GetSelectedFrame).name_to_value := by
    rw [hw]; exact congrArg (fun q => q.2.2.2) hfd
  refine ⟨e1.trans k1, e2.trans k2, e3.trans k3, e4.trans k4, ?_, ?_⟩
  · intro n d hn
    rw [e4]
    rw [hw] at hn ⊢
    have hn1 : mapFind (drawVars TreeNode (refreshCache c ps.GetSelectedFrame).var_names
        (refreshCache c ps.GetSelectedFrame) [] []).1.name_to_desc n = some d := hn
    have hempty : mapFind (refreshCache c ps.GetSelectedFrame).name_to_desc n = none := by
      rw [k5]; rfl
    refine ⟨?_, ?_⟩
    · rcases drawVars_origin_log TreeNode _ _ [] [] n d hn1 with h4 | h4
      · rw [hempty] at h4
        exact Option.noConfusion h4
      · exact h4
    · rcases drawVars_origin TreeNode _ _ [] [] n d hn1 with h4 | ⟨_, h5, v, h6, h7⟩
      · rw [hempty] at h4
        exact Option.noConfusion h4
      · exact ⟨h5, v, h6, h7⟩
  · intro c2 hkey2
    obtain ⟨a1, a2, a3⟩ := WindowLocals_of_mismatch c state TreeNode _ hs hkey
    obtain ⟨b1, b2, b3⟩ := WindowLocals_of_mismatch c2 state TreeNode _ hs hkey2
    exact ⟨b1.trans a1.symm, b2.trans a2.symm, b3.trans a3.symm⟩

/-- Witness for C1: the initial statics against the stopped session at frame 3,
pc 0x2000. -/
theorem WindowLocals_rebuilds_on_key_mismatch_witness :
    (WindowLocals LocalsStatics.initial (stateWith sessionC) allOpen).statics.last_frame_id
        = 3 ∧
      (WindowLocals LocalsStatics.initial (stateWith sessionC) allOpen).statics.last_frame_pc
        = 0x2000 :=
  have h := WindowLocals_rebuilds_on_key_mismatch LocalsStatics.initial (stateWith sessionC)
    _ sessionC allOpen rfl rfl rfl (by decide)
  ⟨h.1, h.2.1⟩

/-- C5: after a rebuild, `var_names` is the list, in enumeration order, of the
display names of the variables whose load address is not the sentinel
`2^64 - 1`, the keys of `name_to_value` are exactly those display names, and a
variable whose load address is the sentinel is in neither, by name or by
value. -/
theorem WindowLocals_filters_unresolved (c : LocalsStatics) (state : State)
    (ts : TargetState) (ps : ProcessState) (TreeNode : String → Bool)
    (h1 : state.target_state = some ts) (h2 : ts.process_state = some ps)
    (h3 : ps.GetState = .eStateStopped)
    (hkey : ps.GetSelectedFrame.GetFrameID ≠ c.last_frame_id ∨
      ps.GetSelectedFrame.GetPC ≠ c.last_frame_pc) :
    (WindowLocals c state TreeNode).statics.var_names =
      (ps.GetSelectedFrame.GetVariables.filter
        (fun v => decide (v.GetLoadAddress ≠ 2 ^ 64 - 1))).map
        (fun v => displayName v.GetName v.GetLoadAddress) ∧
    (∀ x, x ∈ mapKeys (WindowLocals c state TreeNode).statics.name_to_value ↔
      ∃ v ∈ ps.GetSelectedFrame.GetVariables, v.GetLoadAddress ≠ 2 ^ 64 - 1 ∧
        x = displayName v.GetName v.GetLoadAddress) ∧
    (∀ v ∈ ps.GetSelectedFrame.GetVariables, v.GetLoadAddress = 2 ^ 64 - 1 →
      displayName v.GetName v.GetLoadAddress ∉
          (WindowLocals c state TreeNode).statics.var_names ∧
        displayName v.GetName v.GetLoadAddress ∉
          mapKeys (WindowLocals c state TreeNode).statics.name_to_value ∧
        ∀ e ∈ (WindowLocals c state TreeNode).statics.name_to_value, e.2 ≠ v) := by
  have hs := stoppedFrame_of_stopped state ts ps h1 h2 h3
  have hw := WindowLocals_of_some c state TreeNode _ hs
  obtain ⟨_, _, k3, k4, _⟩ := refreshCache_of_mismatch c ps.GetSelectedFrame hkey
  have hfd := drawVars_frameData TreeNode (refreshCache c ps.GetSelectedFrame).var_names
    (refreshCache c ps.GetSelectedFrame) [] []
  have e3 : (WindowLocals c state TreeNode).statics.var_names =
      resolvedNames ps.GetSelectedFrame.GetVariables := by
    rw [hw]; exact (congrArg (fun q => q.2.2.1) hfd).trans k3
  have e4 : (WindowLocals c state TreeNode).statics.name_to_value =
      resolvedValues ps.GetSelectedFrame.GetVariables [] := by
    rw [hw]; exact (congrArg (fun q => q.2.2.2) hfd).trans k4
  have hmem : ∀ x, x ∈ resolvedNames ps.GetSelectedFrame.GetVariables ↔
      ∃ v ∈ ps.GetSelectedFrame.GetVariables, v.GetLoadAddress ≠ 2 ^ 64 - 1 ∧
        x = displayName v.GetName v.GetLoadAddress := by
    intro x
    simp only [resolvedNames, LLDB_INVALID_ADDRESS, List.mem_map, List.mem_filter,
      decide_eq_true_eq]
    constructor
    · rintro ⟨v, ⟨hv1, hv2⟩, hv3⟩
      exact ⟨v, hv1, hv2, hv3.symm⟩
    · rintro ⟨v, hv1, hv2, hv3⟩
      exact ⟨v, ⟨hv1, hv2⟩, hv3.symm⟩
  have hkeys : ∀ x, x ∈ mapKeys (WindowLocals c state TreeNode).statics.name_to_value ↔
      x ∈ resolvedNames ps.GetSelectedFrame.GetVariables := by
    intro x
    rw [e4, mem_mapKeys_resolvedValues]
    simp [mapKeys]
  have hout : ∀ v ∈ ps.GetSelectedFrame.GetVariables, v.GetLoadAddress = 2 ^ 64 - 1 →
      displayName v.GetName v.GetLoadAddress ∉
        resolvedNames ps.GetSelectedFrame.GetVariables := by
    intro v _ hv hin
    obtain ⟨w, _, hw2, hw3⟩ := (hmem _).mp hin
    obtain ⟨_, ha⟩ := displayName_injective _ _ _ _ hw3
    exact hw2 (ha ▸ hv)
  refine ⟨e3, fun x => (hkeys x).trans (hmem x), ?_⟩
  intro v hv hsent
  refine ⟨by rw [e3]; exact hout v hv hsent, fun hin => hout v hv hsent ((hkeys _).mp hin), ?_⟩
  intro e he hev
  rw [e4] at he
  rcases mem_resolvedValues _ [] e he with h4 | ⟨_, h5, _⟩
  · simp at h4
  · rw [hev] at h5
    exact h5 hsent

/-- Witness for C5: the frame with a resolved local `n` and an unresolved
`tmp` lists `n` only. -/
theorem WindowLocals_filters_unresolved_witness :
    (WindowLocals LocalsStatics.initial (stateWith sessionC) allOpen).statics.var_names =
      (sessionC.GetSelectedFrame.GetVariables.filter
        (fun v => decide (v.GetLoadAddress ≠ 2 ^ 64 - 1))).map
        (fun v => displayName v.GetName v.GetLoadAddress) :=
  (WindowLocals_filters_unresolved LocalsStatics.initial (stateWith sessionC)
    _ sessionC allOpen rfl rfl rfl (by decide)).1

/-- C6: the display name is the name, then " at ", then the load address in
hexadecimal with prefix 0x, at least 10 characters wide (exactly 10 below
2^32, the digits padded with zeros); the map from (name, load address) to
display name is injective, so equal names with different addresses give
different display names. -/
theorem displayName_disambiguates :
    (∀ (name : String) (addr : Nat),
      displayName name addr = name ++ " at " ++ formatHex010 addr ∧
      (formatHex010 addr).data.take 2 = ['0', 'x'] ∧
      (∀ ch ∈ (formatHex010 addr).data.drop 2, ch ∈ "0123456789abcdef".data) ∧
      decodeHex ((formatHex010 addr).data.drop 2) = addr ∧
      10 ≤ (formatHex010 addr).length ∧
      (addr < 2 ^ 32 → (formatHex010 addr).length = 10)) ∧
    (∀ (n1 n2 : String) (a1 a2 : Nat),
      displayName n1 a1 = displayName n2 a2 → n1 = n2 ∧ a1 = a2) ∧
    (∀ (name : String) (a1 a2 : Nat), a1 ≠ a2 →
      displayName name a1 ≠ displayName name a2) ∧
    (∀ v w : SBValue,
      displayName v.GetName v.GetLoadAddress = displayName w.GetName w.GetLoadAddress →
      v.GetName = w.GetName ∧ v.GetLoadAddress = w.GetLoadAddress) := by
  refine ⟨?_, displayName_injective, ?_, ?_⟩
  · intro name addr
    exact ⟨rfl, rfl, formatHex010_digits addr, decodeHex_formatHex010 addr,
      formatHex010_length_ge addr, formatHex010_length_eq addr⟩
  · intro name a1 a2 hne h
    exact hne (displayName_injective _ _ _ _ h).2
  · intro v w h
    exact displayName_injective _ _ _ _ h

/-- C10: from the initial empty statics and after every sequence of calls,
every listed name and every described name is a key of the value map; hence
`get_name_desc` returns a text (not null) for every listed name, and every
open tree node drawn by a further call shows a text. -/
theorem WindowLocals_cache_consistent (calls : List LocalsCall) :
    (∀ n ∈ (runLocals LocalsStatics.initial calls).1.var_names,
      n ∈ mapKeys (runLocals LocalsStatics.initial calls).1.name_to_value) ∧
    (∀ n ∈ mapKeys (runLocals LocalsStatics.initial calls).1.name_to_desc,
      n ∈ mapKeys (runLocals LocalsStatics.initial calls).1.name_to_value) ∧
    (∀ n ∈ (runLocals LocalsStatics.initial calls).1.var_names,
      ∃ d, (get_name_desc (runLocals LocalsStatics.initial calls).1 n).value = some d) ∧
    (∀ (state : State) (TreeNode : String → Bool) (rows : List LocalsRow),
      (WindowLocals (runLocals LocalsStatics.initial calls).1 state TreeNode).view =
        .vars rows →
      ∀ r ∈ rows, r.opened = true → ∃ d, r.text = some d) := by
  have hinit : cacheConsistent LocalsStatics.initial := by
    refine ⟨?_, ?_⟩ <;> intro n hn <;> simp [LocalsStatics.initial, mapKeys] at hn
  have h := cacheConsistent_runLocals calls LocalsStatics.initial hinit
  refine ⟨h.1, h.2, ?_, ?_⟩
  · intro n hn
    exact get_name_desc_value_of_mem _ n (h.1 n hn)
  · intro state TreeNode rows hv r hr
    exact WindowLocals_rows_text _ state TreeNode h rows hv r hr

/-- C7: a rebuild leaves `name_to_desc` empty; the first request for a cached
name invokes the backend description once, returns it and stores it; once a
description is stored, over every later sequence of calls whose selected
frame still has the cached key it stays stored, the backend is not invoked
for that name again and a request returns the stored text; over such a
sequence the backend is invoked at most once per name, only for names without
a stored description. -/
theorem descriptions_lazy_and_memoized :
    (∀ (c : LocalsStatics) (frame : SBFrame),
      (frame.GetFrameID ≠ c.last_frame_id ∨ frame.GetPC ≠ c.last_frame_pc) →
      (refreshCache c frame).name_to_desc = []) ∧
    (∀ (c : LocalsStatics) (n : String) (v : SBValue),
      mapFind c.name_to_desc n = none → mapFind c.name_to_value n = some v →
      (get_name_desc c n).value = some v.GetDescription ∧
      (get_name_desc c n).described = [n] ∧
      mapFind (get_name_desc c n).statics.name_to_desc n = some v.GetDescription) ∧
    (∀ (c : LocalsStatics) (n d : String) (calls : List LocalsCall),
      mapFind c.name_to_desc n = some d → keyKept c calls →
      mapFind (runLocals c calls).1.name_to_desc n = some d ∧
      n ∉ (runLocals c calls).2 ∧
      get_name_desc (runLocals c calls).1 n =
        { value := some d, statics := (runLocals c calls).1, described := [] }) ∧
    (∀ (c : LocalsStatics) (calls : List LocalsCall), keyKept c calls →
      (runLocals c calls).2.Nodup ∧
      ∀ n ∈ (runLocals c calls).2, mapFind c.name_to_desc n = none ∧
        ∃ v, mapFind c.name_to_value n = some v ∧
          mapFind (runLocals c calls).1.name_to_desc n = some v.GetDescription) := by
  refine ⟨?_, ?_, ?_, ?_⟩
  · intro c frame h
    exact (refreshCache_of_mismatch c frame h).2.2.2.2
  · intro c n v hd hv
    rw [get_name_desc_miss c n v hd hv]
    exact ⟨rfl, rfl, mapFind_mapAssign_self _ _ _⟩
  · intro c n d calls hd hk
    obtain ⟨_, _, r3, _⟩ := runLocals_kept calls c [] ⟨List.nodup_nil, by simp⟩ hk
    obtain ⟨p1, p2⟩ := r3 n d hd
    exact ⟨p1, p2, get_name_desc_hit _ n d p1⟩
  · intro c calls hk
    obtain ⟨r1, _, _, r4⟩ := runLocals_kept calls c [] ⟨List.nodup_nil, by simp⟩ hk
    exact ⟨by simpa using r1.1, r4⟩

/-- Witness for C7: after a first call that opens the node of `n`, two more
calls on the same frame keep its description and do not invoke the backend
for it again. -/
theorem descriptions_lazy_and_memoized_witness :
    mapFind (runLocals (WindowLocals LocalsStatics.initial (stateWith sessionC) allOpen).statics
        [{ state := stateWith sessionC, TreeNode := allOpen },
         { state := stateWith sessionC, TreeNode := allOpen }]).1.name_to_desc
        "n at 0x7ffe0010" = some "(int) n = 7" ∧
      "n at 0x7ffe0010" ∉
        (runLocals (WindowLocals LocalsStatics.initial (stateWith sessionC) allOpen).statics
          [{ state := stateWith sessionC, TreeNode := allOpen },
           { state := stateWith sessionC, TreeNode := allOpen }]).2 :=
  have h := descriptions_lazy_and_memoized.2.2.1
    (WindowLocals LocalsStatics.initial (stateWith sessionC) allOpen).statics
    "n at 0x7ffe0010" "(int) n = 7"
    [{ state := stateWith sessionC, TreeNode := allOpen },
     { state := stateWith sessionC, TreeNode := allOpen }]
    (by decide)
    (by
      intro call hmem frame hf
      have hc : call.state = stateWith sessionC := by
        simp only [List.mem_cons, List.mem_singleton, List.not_mem_nil, or_false] at hmem
        rcases hmem with e | e <;> rw [e]
      rw [hc] at hf
      have hfr : frame = sessionC.GetSelectedFrame := by
        have : stoppedFrame (stateWith sessionC) = some sessionC.GetSelectedFrame := rfl
        rw [this] at hf
        exact (Option.some.inj hf).symm
      rw [hfr]
      decide)
  ⟨h.1, h.2.1⟩

/-- Counterexample to C2: session B has the frame id and pc cached for
session A; the call for B lists the variable cached for A, which is not a
variable of B. -/
theorem cache_shared_across_sessions :
    sessionA ≠ sessionB ∧
    resolvedNames sessionB.GetSelectedFrame.GetVariables = ["y at 0x00000020"] ∧
    (WindowLocals (WindowLocals LocalsStatics.initial (stateWith sessionA) allOpen).statics
        (stateWith sessionB) allOpen).view =
      .vars [{ label := "x at 0x00000010", opened := true, text := some "(int) x = 1" }] := by
  decide

/-- C2, amended: the cache is keyed by (frame id, pc) alone.  After a call
for a stopped session A, a call for a stopped session B whose selected frame
differs from A's in frame id or pc lists exactly the resolved variables of B,
each text being the description of a variable of B; when frame id and pc both
agree, the names cached for A are listed as they are. -/
theorem cache_across_sessions_by_key (c0 : LocalsStatics) (stA stB : State)
    (tsA tsB : TargetState) (A B : ProcessState) (TA TB : String → Bool)
    (hA1 : stA.target_state = some tsA) (hA2 : tsA.process_state = some A)
    (hA3 : A.GetState = .eStateStopped)
    (hB1 : stB.target_state = some tsB) (hB2 : tsB.process_state = some B)
    (hB3 : B.GetState = .eStateStopped) :
    ((B.GetSelectedFrame.GetFrameID ≠ A.GetSelectedFrame.GetFrameID ∨
        B.GetSelectedFrame.GetPC ≠ A.GetSelectedFrame.GetPC) →
      ∃ rows, (WindowLocals (WindowLocals c0 stA TA).statics stB TB).view = .vars rows ∧
        rows.map LocalsRow.label = resolvedNames B.GetSelectedFrame.GetVariables ∧
        ∀ r ∈ rows, ∀ t, r.text = some t →
          ∃ v ∈ B.GetSelectedFrame.GetVariables,
            r.label = displayName v.GetName v.GetLoadAddress ∧ t = v.GetDescription) ∧
    ((B.GetSelectedFrame.GetFrameID = A.GetSelectedFrame.GetFrameID ∧
        B.GetSelectedFrame.GetPC = A.GetSelectedFrame.GetPC) →
      ∃ rows, (WindowLocals (WindowLocals c0 stA TA).statics stB TB).view = .vars rows ∧
        rows.map LocalsRow.label = (WindowLocals c0 stA TA).statics.var_names ∧
        (WindowLocals (WindowLocals c0 stA TA).statics stB TB).statics.var_names =
          (WindowLocals c0 stA TA).statics.var_names ∧
        (WindowLocals (WindowLocals c0 stA TA).statics stB TB).statics.name_to_value =
          (WindowLocals c0 stA TA).statics.name_to_value) := by
  have hsA := stoppedFrame_of_stopped stA tsA A hA1 hA2 hA3
  have hsB := stoppedFrame_of_stopped stB tsB B hB1 hB2 hB3
  have hwA := WindowLocals_of_some c0 stA TA _ hsA
  have hfdA := drawVars_frameData TA (refreshCache c0 A.GetSelectedFrame).var_names
    (refreshCache c0 A.GetSelectedFrame) [] []
  obtain ⟨kA1, kA2⟩ := refreshCache_key c0 A.GetSelectedFrame
  have keyA1 : (WindowLocals c0 stA TA).statics.last_frame_id =
      A.GetSelectedFrame.GetFrameID := by
    rw [hwA]; exact (congrArg (fun q => q.1) hfdA).trans kA1
  have keyA2 : (WindowLocals c0 stA TA).statics.last_frame_pc =
      A.GetSelectedFrame.GetPC := by
    rw [hwA]; exact (congrArg (fun q => q.2.1) hfdA).trans kA2
  have hwB := WindowLocals_of_some (WindowLocals c0 stA TA).statics stB TB _ hsB
  refine ⟨?_, ?_⟩
  · intro hne
    have hkey : B.GetSelectedFrame.GetFrameID ≠ (WindowLocals c0 stA TA).statics.last_frame_id ∨
        B.GetSelectedFrame.GetPC ≠ (WindowLocals c0 stA TA).statics.last_frame_pc := by
      rw [keyA1, keyA2]; exact hne
    obtain ⟨_, _, k3, k4, k5⟩ :=
      refreshCache_of_mismatch (WindowLocals c0 stA TA).statics B.GetSelectedFrame hkey
    refine ⟨_, by rw [hwB], ?_, ?_⟩
    · rw [drawVars_labels, k3]
      simp
    · have hsound : descSound
          (refreshCache (WindowLocals c0 stA TA).statics B.GetSelectedFrame) := by
        intro n d hn
        rw [k5] at hn
        exact Option.noConfusion hn
      obtain ⟨_, hrows⟩ := drawVars_rows_sound TB
        (refreshCache (WindowLocals c0 stA TA).statics B.GetSelectedFrame).var_names
        (refreshCache (WindowLocals c0 stA TA).statics B.GetSelectedFrame) [] [] hsound
        (by simp)
      intro r hr t ht
      obtain ⟨v, hv1, hv2⟩ := hrows r hr t ht
      rw [k4] at hv1
      rcases mem_resolvedValues _ [] _ (mapFind_mem _ _ _ hv1) with h4 | ⟨h5, _, h7⟩
      · simp at h4
      · exact ⟨v, h5, h7, hv2⟩
  · rintro ⟨e1, e2⟩
    have hm := refreshCache_of_match (WindowLocals c0 stA TA).statics B.GetSelectedFrame
      (e1.trans keyA1.symm) (e2.trans keyA2.symm)
    rw [hm] at hwB
    have hfdB := drawVars_frameData TB (WindowLocals c0 stA TA).statics.var_names
      (WindowLocals c0 stA TA).statics [] []
    refine ⟨_, by rw [hwB], ?_, ?_, ?_⟩
    · rw [drawVars_labels]
      simp
    · rw [hwB]; exact congrArg (fun q => q.2.2.1) hfdB
    · rw [hwB]; exact congrArg (fun q => q.2.2.2) hfdB

/-- Witness for C2 as amended: session A at (0, 0x1000), then session C at
(3, 0x2000). -/
theorem cache_across_sessions_by_key_witness :
    ∃ rows, (WindowLocals (WindowLocals LocalsStatics.initial (stateWith sessionA)
        allOpen).statics (stateWith sessionC) allOpen).view = .vars rows ∧
      rows.map LocalsRow.label = resolvedNames sessionC.GetSelectedFrame.GetVariables ∧
      ∀ r ∈ rows, ∀ t, r.text = some t →
        ∃ v ∈ sessionC.GetSelectedFrame.GetVariables,
          r.label = displayName v.GetName v.GetLoadAddress ∧ t = v.GetDescription :=
  (cache_across_sessions_by_key LocalsStatics.initial (stateWith sessionA)
    (stateWith sessionC) _ _ sessionA sessionC allOpen allOpen rfl rfl rfl rfl rfl rfl).1
    (by decide)

/-! ## The debug window -/

theorem pushIf_eq (pressed : Bool) (event : Event) (events : List Event) :
    pushIf pressed event events = events ++ (if pressed then [event] else []) := by
  cases pressed <;> simp [pushIf]

/-- C8: the events `WindowDebug` appends respect the preconditions of the
transition table in the state it is drawn against: nothing without a target
session, at most `StartProcess` with a target session and no process session,
nothing with a process session that is not stopped; a `ChangeDebugState` event
is appended only with a stopped process session and `StartProcess` only
without a process session; nothing else of the state changes. -/
theorem WindowDebug_events_respect_preconditions (state : State) (Button : String → Bool) :
    ∃ new : List Event,
      (WindowDebug state Button).events = state.events ++ new ∧
      (WindowDebug state Button).target_state = state.target_state ∧
      (state.target_state = none → new = []) ∧
      (∀ ts, state.target_state = some ts → ts.process_state = none →
        new = [] ∨ new = [.StartProcessEvent]) ∧
      (∀ ts ps, state.target_state = some ts → ts.process_state = some ps →
        ps.GetState ≠ .eStateStopped → new = []) ∧
      (∀ kind, Event.ChangeDebugStateEvent kind ∈ new →
        ∃ ts ps, state.target_state = some ts ∧ ts.process_state = some ps ∧
          ps.GetState = .eStateStopped) ∧
      (Event.StartProcessEvent ∈ new →
        ∃ ts, state.target_state = some ts ∧ ts.process_state = none) ∧
      (∀ e ∈ new, e = .StartProcessEvent ∨ ∃ kind, e = .ChangeDebugStateEvent kind) := by
  cases h1 : state.target_state with
  | none =>
    refine ⟨[], ?_⟩
    simp [WindowDebug, h1]
  | some ts =>
    cases h2 : ts.process_state with
    | none =>
      by_cases hb : Button "Start" = true
      · refine ⟨[.StartProcessEvent], ?_, ?_, ?_, ?_, ?_, ?_, ?_, ?_⟩
        · simp [WindowDebug, h1, h2, hb]
        · simp [WindowDebug, h1, h2, hb]
        · intro h; exact Option.noConfusion h
        · intro ts1 _ _; exact Or.inr rfl
        · intro ts1 ps1 e hp
          rw [← Option.some.inj e, h2] at hp
          exact Option.noConfusion hp
        · intro kind hm
          simp at hm
        · intro _; exact ⟨ts, rfl, h2⟩
        · intro e hm
          exact Or.inl (List.mem_singleton.mp hm)
      · refine ⟨[], ?_⟩
        simp [WindowDebug, h1, h2, hb]
    | some ps =>
      by_cases h3 : ps.GetState = .eStateStopped
      · refine ⟨(if Button "Kill" then [.ChangeDebugStateEvent .Kill] else []) ++
          (if Button "Step In" then [.ChangeDebugStateEvent .StepIn] else []) ++
          (if Button "Step Over" then [.ChangeDebugStateEvent .StepOver] else []) ++
          (if Button "Continue" then [.ChangeDebugStateEvent .Continue] else []), ?_⟩
        refine ⟨?_, ?_, ?_, ?_, ?_, ?_, ?_, ?_⟩
        · simp [WindowDebug, h1, h2, h3, pushIf_eq]
        · simp [WindowDebug, h1, h2, h3]
        · intro h; exact Option.noConfusion h
        · intro ts1 e hp
          rw [← Option.some.inj e, h2] at hp
          exact Option.noConfusion hp
        · intro ts1 ps1 e hp hn
          rw [← Option.some.inj e, h2] at hp
          rw [← Option.some.inj hp] at hn
          exact absurd h3 hn
        · intro kind _
          exact ⟨ts, ps, rfl, h2, h3⟩
        · intro hmem
          exfalso
          simp only [List.mem_append] at hmem
          rcases hmem with ((hm | hm) | hm) | hm <;> split at hm <;> simp at hm
        · intro e hmem
          simp only [List.mem_append] at hmem
          rcases hmem with ((hm | hm) | hm) | hm <;> split at hm <;> simp at hm <;>
            exact Or.inr ⟨_, hm⟩
      · refine ⟨[], ?_, ?_, ?_, ?_, ?_, ?_, ?_, ?_⟩
        · simp [WindowDebug, h1, h2, h3]
        · simp [WindowDebug, h1, h2, h3]
        · intro _; rfl
        · intro _ _ _; exact Or.inl rfl
        · intro _ _ _ _ _; rfl
        · intro kind hm; simp at hm
        · intro hm; simp at hm
        · intro e hm; simp at hm

/-! ## The command bar -/

theorem handle_parsed_command_future (state final : State) (parsed : ParsedCommand)
    (ready : Bool) (Selectable : Nat → String → Bool)
    (h : handle_parsed_command state parsed ready Selectable = .ok final) :
    (symLocCachePresent state = true →
      futureOps final = futureOps state ∧ symLocCachePresent final = true) ∧
    (symLocCachePresent state = false →
      (futureOps final = futureOps state ∧ symLocCachePresent final = false) ∨
      (futureOps final = futureOps state ++ [.wait_for false] ∧
        symLocCachePresent final = false) ∨
      (futureOps final = futureOps state ++ [.wait_for true, .get] ∧
        symLocCachePresent final = true)) := by
  cases h1 : state.target_state with
  | none =>
    simp only [handle_parsed_command, h1, Except.ok.injEq] at h
    subst h
    simp [symLocCachePresent, h1]
  | some ts =>
    cases parsed with
    | otherCommand =>
      simp only [handle_parsed_command, h1, Except.ok.injEq] at h
      subst h
      cases hp : symLocCachePresent state <;> simp
    | LookForSymbolCommand text =>
      cases h2 : ts.sym_loc_cache with
      | none =>
        cases ready with
        | true =>
          simp only [handle_parsed_command, h1, h2, if_true, Except.ok.injEq] at h
          subst h
          simp [symLocCachePresent, futureOps, h1, h2]
        | false =>
          simp only [handle_parsed_command, h1, h2, Bool.false_eq_true, if_false,
            Except.ok.injEq] at h
          subst h
          simp [symLocCachePresent, futureOps, h1, h2]
      | some cache =>
        simp only [handle_parsed_command, h1, h2] at h
        cases hc : forEachMatchCallback Selectable (cache.ForEachMatch text) 0 state.events with
        | error f =>
          rw [hc] at h
          exact Except.noConfusion h
        | ok events =>
          rw [hc] at h
          simp only [Except.ok.injEq] at h
          subst h
          simp [symLocCachePresent, futureOps, h1, h2]

theorem runCommandBar_present (calls : List CommandBarCall) :
    ∀ (state final : State), (∀ call ∈ calls, keepsSymbolIndex call.update) →
      runCommandBar state calls = .ok final →
      symLocCachePresent state = true →
      futureOps final = futureOps state ∧ symLocCachePresent final = true := by
  induction calls with
  | nil =>
    intro state final _ h hp
    simp only [runCommandBar, Except.ok.injEq] at h
    subst h
    exact ⟨rfl, hp⟩
  | cons call rest ih =>
    intro state final hu h hp
    obtain ⟨u1, u2⟩ := hu call (by simp) state
    simp only [runCommandBar] at h
    cases hc : handle_parsed_command (call.update state) call.parsed call.ready
        call.Selectable with
    | error f => rw [hc] at h; exact Except.noConfusion h
    | ok s1 =>
      rw [hc] at h
      obtain ⟨e1, e2⟩ := (handle_parsed_command_future _ s1 _ _ _ hc).1 (u2.trans hp)
      obtain ⟨e3, e4⟩ := ih s1 final (fun c hm => hu c (List.mem_cons_of_mem _ hm)) h e2
      exact ⟨e3.trans (e1.trans u1), e4⟩

theorem runCommandBar_absent (calls : List CommandBarCall) :
    ∀ (state final : State), (∀ call ∈ calls, keepsSymbolIndex call.update) →
      runCommandBar state calls = .ok final →
      symLocCachePresent state = false →
      ∃ new, futureOps final = futureOps state ++ new ∧ oneShot new ∧
        (FutureOp.get ∈ new ↔ symLocCachePresent final = true) := by
  induction calls with
  | nil =>
    intro state final _ h hp
    simp only [runCommandBar, Except.ok.injEq] at h
    subst h
    exact ⟨[], by simp, ⟨0, Or.inl rfl⟩, by simp [hp]⟩
  | cons call rest ih =>
    intro state final hu h hp
    obtain ⟨u1, u2⟩ := hu call (by simp) state
    have hrest : ∀ c ∈ rest, keepsSymbolIndex c.update :=
      fun c hm => hu c (List.mem_cons_of_mem _ hm)
    simp only [runCommandBar] at h
    cases hc : handle_parsed_command (call.update state) call.parsed call.ready
        call.Selectable with
    | error f => rw [hc] at h; exact Except.noConfusion h
    | ok s1 =>
      rw [hc] at h
      rcases (handle_parsed_command_future _ s1 _ _ _ hc).2 (u2.trans hp) with
        ⟨e1, e2⟩ | ⟨e1, e2⟩ | ⟨e1, e2⟩
      · obtain ⟨new, n1, n2, n3⟩ := ih s1 final hrest h e2
        exact ⟨new, by rw [n1, e1, u1], n2, n3⟩
      · obtain ⟨new, n1, ⟨k, n2⟩, n3⟩ := ih s1 final hrest h e2
        refine ⟨.wait_for false :: new, by rw [n1, e1, u1]; simp, ⟨k + 1, ?_⟩, ?_⟩
        · rcases n2 with n2 | n2
          · exact Or.inl (by rw [n2]; rfl)
          · exact Or.inr (by rw [n2]; rfl)
        · rw [← n3]
          simp
      · obtain ⟨e3, e4⟩ := runCommandBar_present rest s1 final hrest h e2
        exact ⟨[.wait_for true, .get], by rw [e3, e1, u1], ⟨0, Or.inr rfl⟩, by simp [e4]⟩

/-- C3: over every sequence of calls of `handle_parsed_command` on a target
session, whatever else happens to the state between the calls as long as the
target session is kept, the operations performed on the future are polls
reporting not
ready, then at most one poll reporting ready followed at once by the one
`get`; the future is not touched at all when `sym_loc_cache` is present at
the start, and `get` has been performed exactly when `sym_loc_cache` became
present. -/
theorem symbol_index_future_one_shot (state final : State) (calls : List CommandBarCall)
    (hu : ∀ call ∈ calls, keepsSymbolIndex call.update)
    (h : runCommandBar state calls = .ok final) :
    ∃ new, futureOps final = futureOps state ++ new ∧ oneShot new ∧
      new.count .get ≤ 1 ∧
      (symLocCachePresent state = true → new = []) ∧
      (FutureOp.get ∈ new → symLocCachePresent final = true) ∧
      (symLocCachePresent state = false →
        (FutureOp.get ∈ new ↔ symLocCachePresent final = true)) ∧
      (∀ before after, new = before ++ .get :: after →
        after = [] ∧ ∃ polls, before = polls ++ [.wait_for true] ∧
          ∀ op ∈ polls, op = .wait_for false) := by
  have key : ∀ new, oneShot new →
      new.count .get ≤ 1 ∧
      (∀ before after, new = before ++ .get :: after →
        after = [] ∧ ∃ polls, before = polls ++ [.wait_for true] ∧
          ∀ op ∈ polls, op = .wait_for false) := by
    rintro new ⟨k, hk | hk⟩
    · have hnot : FutureOp.get ∉ new := by
        rw [hk]
        intro hm
        exact FutureOp.noConfusion (List.eq_of_mem_replicate hm)
      refine ⟨by rw [List.count_eq_zero_of_not_mem hnot]; exact Nat.zero_le _, ?_⟩
      intro before after e
      exact absurd (by rw [e]; simp) hnot
    · refine ⟨?_, ?_⟩
      · rw [hk, List.count_append, List.count_replicate]
        simp
      · intro before after e
        rw [hk] at e
        have e1 : (List.replicate k (FutureOp.wait_for false) ++ [.wait_for true]) ++
            .get :: [] = before ++ .get :: after := by simpa using e
        rcases List.eq_nil_or_concat after with ha | ⟨front, last, ha⟩
        · subst ha
          exact ⟨rfl, _, (List.append_cancel_right e1).symm,
            fun op hop => List.eq_of_mem_replicate hop⟩
        · exfalso
          rw [ha] at e1
          have e2 : (List.replicate k (FutureOp.wait_for false) ++ [.wait_for true]) ++
              [FutureOp.get] = (before ++ .get :: front) ++ [last] := by
            simpa using e1
          have e3 := (List.append_inj' e2 rfl).1
          have hmem : FutureOp.get ∈
              List.replicate k (FutureOp.wait_for false) ++ [.wait_for true] := by
            rw [e3]; simp
          rcases List.mem_append.mp hmem with hm | hm
          · exact FutureOp.noConfusion (List.eq_of_mem_replicate hm)
          · exact FutureOp.noConfusion (List.mem_singleton.mp hm)
  cases hp : symLocCachePresent state with
  | true =>
    obtain ⟨e1, e2⟩ := runCommandBar_present calls state final hu h hp
    refine ⟨[], by simp [e1], ⟨0, Or.inl rfl⟩, by simp, fun _ => rfl, by simp, by simp, ?_⟩
    intro before after e
    exact absurd (congrArg List.length e)
      (by simp only [List.length_nil, List.length_append, List.length_cons]; omega)
  | false =>
    obtain ⟨new, n1, n2, n3⟩ := runCommandBar_absent calls state final hu h hp
    obtain ⟨k1, k2⟩ := key new n2
    exact ⟨new, n1, n2, k1, by simp, n3.mp, fun _ => n3, k2⟩

/-- Witness for C3: a fresh target session, polled twice while not ready,
then ready, then searched once more; between the calls the event queue is
drained. -/
theorem symbol_index_future_one_shot_witness :
    ∃ final, runCommandBar (stateWith sessionA) pollingCalls = .ok final ∧
      ∃ new, futureOps final = futureOps (stateWith sessionA) ++ new ∧ oneShot new ∧
        new.count .get ≤ 1 :=
  ⟨_, rfl,
    have h := symbol_index_future_one_shot (stateWith sessionA) _ pollingCalls
      (by
        intro call hmem s
        have hc : call.update = drainEvents := by
          simp only [pollingCalls, List.mem_cons, List.mem_singleton, List.not_mem_nil,
            or_false] at hmem
          rcases hmem with e | e | e | e <;> rw [e]
        rw [hc]
        exact ⟨rfl, rfl⟩)
      rfl
    h.elim fun new hn => ⟨new, hn.1, hn.2.1, hn.2.2.1⟩⟩

/-- C4, the code at the failing input: selecting the match `_start`, whose
location is absent, dereferences the empty optional; no state is returned. -/
theorem selecting_unlocated_match_faults :
    handle_parsed_command indexedState (.LookForSymbolCommand "st") true
        (fun _ name => decide (name = "_start")) =
      .error .emptyOptionalDereferenced := by
  rfl

theorem forEachMatchCallback_ok (Selectable : Nat → String → Bool) :
    ∀ (ms : List SymbolMatch) (i : Nat) (events final : List Event),
      forEachMatchCallback Selectable ms i events = .ok final →
      ∃ new, final = events ++ new ∧
        (∀ e ∈ new, ∃ m ∈ ms, ∃ loc, m.loc = some loc ∧ e = .ViewSourceEvent loc) ∧
        ∀ k (hk : k < ms.length), Selectable (i + k) (ms.get ⟨k, hk⟩).name = true →
          ∃ loc, (ms.get ⟨k, hk⟩).loc = some loc := by
  intro ms
  induction ms with
  | nil =>
    intro i events final h
    simp only [forEachMatchCallback, Except.ok.injEq] at h
    exact ⟨[], by simp [h], by simp, fun k hk => absurd hk (by simp)⟩
  | cons m rest ih =>
    intro i events final h
    by_cases hsel : Selectable i m.name = true
    · cases hloc : m.loc with
      | none =>
        simp only [forEachMatchCallback, hsel, if_true, hloc] at h
        exact Except.noConfusion h
      | some loc =>
        simp only [forEachMatchCallback, hsel, if_true, hloc] at h
        obtain ⟨new, n1, n2, n3⟩ := ih (i + 1) _ final h
        refine ⟨.ViewSourceEvent loc :: new, by rw [n1]; simp, ?_, ?_⟩
        · intro e he
          rcases List.mem_cons.mp he with h1 | h1
          · exact ⟨m, by simp, loc, hloc, h1⟩
          · obtain ⟨m1, hm1, l1, hl1, he1⟩ := n2 e h1
            exact ⟨m1, List.mem_cons_of_mem _ hm1, l1, hl1, he1⟩
        · intro k hk hs
          cases k with
          | zero => exact ⟨loc, hloc⟩
          | succ k =>
            have hk1 : k < rest.length := by simpa using hk
            have := n3 k hk1 (by
              have e : i + 1 + k = i + (k + 1) := by omega
              rw [e]; exact hs)
            exact this
    · have hf : Selectable i m.name = false := by simpa using hsel
      simp only [forEachMatchCallback, hf, Bool.false_eq_true, if_false] at h
      obtain ⟨new, n1, n2, n3⟩ := ih (i + 1) _ final h
      refine ⟨new, n1, ?_, ?_⟩
      · intro e he
        obtain ⟨m1, hm1, l1, hl1, he1⟩ := n2 e he
        exact ⟨m1, List.mem_cons_of_mem _ hm1, l1, hl1, he1⟩
      · intro k hk hs
        cases k with
        | zero =>
          have hs0 : Selectable i m.name = true := by simpa using hs
          rw [hf] at hs0
          exact Bool.noConfusion hs0
        | succ k =>
          have hk1 : k < rest.length := by simpa using hk
          have := n3 k hk1 (by
            have e : i + 1 + k = i + (k + 1) := by omega
            rw [e]; exact hs)
          exact this

/-! ## The source view -/

end lodeb
